import Mathlib

/-!
# Bandage: BLAST search session (`src/blast/blastsearch.cpp`)

A shallow embedding of `BlastSearch` and of the pieces of Qt, of the query
store and of the assembly graph that its member functions use, followed by
theorems about the parser `buildHitsFromBlastOutput`, about
`clearSomeQueries`, about `blastTargetChanged`, about `cleanQueryName` and about
`doAutoBlastSearch`.

Conventions of the embedding:

* a `QString` is the list of its characters;
* an object pointer is an address (`Ptr`); a pointer that may be null is an
  `Option Ptr`, with `none` for the null pointer;
* the two process-wide objects `g_blastSearch` and `g_assemblyGraph` are
  passed explicitly; `this` is `g_blastSearch`;
* an access outside a `QStringList` (undefined behaviour in C++) makes the
  embedded function return `none`;
* `QString::toDouble` is a parameter `toDouble : QString → D`: no floating
  point arithmetic is modelled.
-/

namespace Bandage

/-! ## Qt strings -/

/-- A `QString`, as the list of its characters. -/
abbrev QString := List Char

/-- An address of a heap object. -/
abbrev Ptr := Nat

/-- The predicate `QChar::isSpace`, also the class `\s` of `QRegExp`: the code points
U+0009 to U+000D, U+0085 and the Unicode separator categories Zs, Zl and Zp. -/
def isSpace (c : Char) : Bool :=
  let n := c.toNat
  (9 ≤ n && n ≤ 13) || n == 0x20 || n == 0x85 || n == 0xA0 || n == 0x1680 ||
  (0x2000 ≤ n && n ≤ 0x200A) || n == 0x2028 || n == 0x2029 || n == 0x202F ||
  n == 0x205F || n == 0x3000

/-- The call `QString::split(sep)` for a one-character separator, empty parts kept:
the result always has at least one part. -/
def split (sep : Char) : QString → List QString
  | [] => [[]]
  | c :: cs =>
    if c = sep then [] :: split sep cs
    else
      match split sep cs with
      | [] => [[c]]
      | p :: ps => (c :: p) :: ps

/-- The call `QString::split(sep, QString::SkipEmptyParts)`. -/
def splitSkipEmptyParts (sep : Char) (s : QString) : List QString :=
  (split sep s).filter (fun p => !p.isEmpty)

/-- The call `QString::trimmed`: whitespace removed at both ends. -/
def trimmed (s : QString) : QString :=
  ((s.dropWhile isSpace).reverse.dropWhile isSpace).reverse

/-- The value of a decimal digit character. -/
def digitValue (c : Char) : Nat := c.toNat - '0'.toNat

/-- The call `QString::toInt()` in base 10: surrounding whitespace is ignored, one sign
is allowed, the rest must be one or more decimal digits and the value must fit a
32-bit `int`; in every other case the conversion fails and the result is 0. -/
def toInt (s : QString) : Int :=
  let t := trimmed s
  let neg : Bool := t.head? = some '-'
  let ds : QString :=
    match t with
    | '-' :: r => r
    | '+' :: r => r
    | r => r
  if ds.isEmpty || !ds.all Char.isDigit then 0
  else
    let v : Int := (ds.foldl (fun a c => 10 * a + digitValue c) 0 : Nat)
    let r : Int := if neg then -v else v
    if -2147483648 ≤ r ∧ r ≤ 2147483647 then r else 0

/-! ## Query names -/

/-- The replacement `queryName.replace(QRegExp("\\s"), "_")`. -/
def replaceWhitespace (queryName : QString) : QString :=
  queryName.map (fun c => if isSpace c then '_' else c)

/-- The `while` loop of `cleanQueryName`, run for at most `fuel` iterations:
while the name is not empty and its last character is a dot, drop that character. -/
def stripTrailingDots : Nat → QString → QString
  | 0, queryName => queryName
  | fuel + 1, queryName =>
    if queryName.length > 0 ∧ queryName.getLast? = some '.' then
      stripTrailingDots fuel (queryName.take (queryName.length - 1))
    else queryName

/-- `BlastSearch::cleanQueryName`. Each iteration of the loop shortens the name, so
`length` iterations are enough (`stripTrailingDots_fuel`). -/
def cleanQueryName (queryName : QString) : QString :=
  let queryName := replaceWhitespace queryName
  stripTrailingDots queryName.length queryName

/-- The cleaning rule in the words of the specification: every whitespace character
becomes one underscore, then the maximal run of trailing dots is removed. -/
def cleanQueryNameSpec (queryName : QString) : QString :=
  ((queryName.map (fun c => if isSpace c then '_' else c)).reverse.dropWhile
    (fun c => c == '.')).reverse

/-! ## Data model -/

/-- Modelled from the spec: the class `BlastQuery` (declared in `blastquery.h`);
section 3 gives a query a name, a sequence string and a running hit count, the
member `m_hits` that the parser increments. -/
structure BlastQuery where
  m_name : QString
  m_sequence : QString
  m_hits : Nat
  deriving DecidableEq, Repr

/-- Modelled from the spec: the class `BlastHit` (declared in `blasthit.h`), section 3:
a query reference, a node reference and ten positional and statistical fields, here
in the order of the constructor call in `buildHitsFromBlastOutput`. `m_query` may be
the null pointer. -/
structure BlastHit (D : Type) where
  m_query : Option Ptr
  m_node : Ptr
  m_percentIdentity : D
  m_alignmentLength : Int
  m_numberMismatches : Int
  m_numberGapOpens : Int
  m_queryStart : Int
  m_queryEnd : Int
  m_nodeStart : Int
  m_nodeEnd : Int
  m_eValue : D
  m_bitScore : Int
  deriving DecidableEq, Repr

/-- Modelled from the spec: the class `AssemblyGraph` (declared in `assemblygraph.h`),
reduced to what `BlastSearch` touches: the node table
`m_deBruijnGraphNodes` (node name to node pointer) and, for every node, its list
`m_blastHits` of attached hit pointers. A hit pointer `&m_hits[j]` is the index `j`. -/
structure AssemblyGraph where
  m_deBruijnGraphNodes : QString → Option Ptr
  m_blastHits : Ptr → List Nat

/-- The object `g_blastSearch`: the query store `m_blastQueries` (the vector
`m_queries` of query pointers, and the query objects they point to), the hit table
`m_hits` and the raw text `m_blastOutput`. -/
structure BlastSearch (D : Type) where
  m_queries : List Ptr
  query : Ptr → BlastQuery
  m_hits : List (BlastHit D)
  m_blastOutput : QString

variable {D : Type}

/-- Modelled from the spec: `BlastQueries::getQueryFromName` (in `blastqueries.cpp`),
section 4.1: a lookup by name that gives the query or not-found. The lookup is in the
order of `m_queries`; not-found is the null pointer. -/
def getQueryFromName (s : BlastSearch D) (queryName : QString) : Option Ptr :=
  s.m_queries.find? (fun p => (s.query p).m_name == queryName)

/-- Modelled from the spec: `BlastQueries::clearSomeQueries` (in `blastqueries.cpp`),
section 4.1: removes the given queries from the store. -/
def clearSomeQueriesOfStore (m_queries : List Ptr) (queriesToRemove : List (Option Ptr)) :
    List Ptr :=
  m_queries.filter (fun p => !queriesToRemove.contains (some p))

/-- Modelled from the spec: `AssemblyGraph::clearAllBlastHitPointers` (in
`assemblygraph.cpp`), section 4.5: clears the attached-hit list of every node of the
graph. -/
def clearAllBlastHitPointers (g : AssemblyGraph) : AssemblyGraph :=
  { g with m_blastHits := fun _ => [] }

/-! ## The parser -/

/-- `BlastSearch::getNodeNameFromString`: element 1 of the split on underscores; `none`
when the list has no element 1. -/
def getNodeNameFromString (nodeString : QString) : Option QString :=
  let nodeStringParts := split '_' nodeString
  nodeStringParts.get? 1

/-- The statement `++(query->m_hits)`. -/
def incrementHits (query : Ptr → BlastQuery) (q : Ptr) : Ptr → BlastQuery :=
  fun p => if p = q then { query p with m_hits := (query p).m_hits + 1 } else query p

/-- The `for` loop of `buildHitsFromBlastOutput` over the lines that remain. A `return`
ends the loop with the current state, `continue` goes on with the next line. -/
def buildHitsLoop (toDouble : QString → D) (g : AssemblyGraph) :
    List QString → BlastSearch D → Option (BlastSearch D)
  | [], s => some s
  | hit :: rest, s =>
    let alignmentParts := split '\t' hit
    if alignmentParts.length < 12 then some s
    else
      let queryName := alignmentParts.getD 0 []
      let nodeLabel := alignmentParts.getD 1 []
      let percentIdentity := toDouble (alignmentParts.getD 2 [])
      let alignmentLength := toInt (alignmentParts.getD 3 [])
      let numberMismatches := toInt (alignmentParts.getD 4 [])
      let numberGapOpens := toInt (alignmentParts.getD 5 [])
      let queryStart := toInt (alignmentParts.getD 6 [])
      let queryEnd := toInt (alignmentParts.getD 7 [])
      let nodeStart := toInt (alignmentParts.getD 8 [])
      let nodeEnd := toInt (alignmentParts.getD 9 [])
      let eValue := toDouble (alignmentParts.getD 10 [])
      let bitScore := toInt (alignmentParts.getD 11 [])
      if nodeStart > nodeEnd then buildHitsLoop toDouble g rest s
      else
        match getNodeNameFromString nodeLabel with
        | none => none
        | some nodeName =>
          match g.m_deBruijnGraphNodes nodeName with
          | none => some s
          | some node =>
            match getQueryFromName s queryName with
            | none => some s
            | some query =>
              buildHitsLoop toDouble g rest
                { s with
                  m_hits := s.m_hits ++
                    [BlastHit.mk (some query) node percentIdentity alignmentLength
                      numberMismatches numberGapOpens queryStart queryEnd
                      nodeStart nodeEnd eValue bitScore]
                  query := incrementHits s.query query }

/-- `BlastSearch::buildHitsFromBlastOutput`. The raw text `m_blastOutput` is the
member of `this`, which the function only reads; it is split into its non-empty lines,
which the loop then reads in order, and the hits go to `g_blastSearch`. The C++
function returns `void`: it has no way to report a failure to its caller. -/
def buildHitsFromBlastOutput (toDouble : QString → D) (g : AssemblyGraph)
    (m_blastOutput : QString) (s : BlastSearch D) : Option (BlastSearch D) :=
  let blastHitList := splitSkipEmptyParts '\n' m_blastOutput
  buildHitsLoop toDouble g blastHitList s

/-! ## Vocabulary of the statements -/

/-- Column `i` of a tab-separated line (the empty string when the line has no such
column). -/
def column (line : QString) (i : Nat) : QString := (split '\t' line).getD i []

/-- A valid line for the graph `g` and the query store of `s`: at least twelve fields,
node start not after node end, a node label whose second underscore-delimited token is
in the node table, and a query name that the query store resolves. -/
def ValidLine (g : AssemblyGraph) (s : BlastSearch D) (line : QString) : Prop :=
  12 ≤ (split '\t' line).length ∧
  toInt (column line 8) ≤ toInt (column line 9) ∧
  (∃ key node, (split '_' (column line 1)).get? 1 = some key ∧
    g.m_deBruijnGraphNodes key = some node) ∧
  (∃ q, getQueryFromName s (column line 0) = some q)

/-- The hit that the parser builds from a line, for the query `q` and the node `node`
its first two columns resolve to. -/
def hitOfLine (toDouble : QString → D) (line : QString) (q node : Ptr) : BlastHit D :=
  BlastHit.mk (some q) node (toDouble (column line 2)) (toInt (column line 3))
    (toInt (column line 4)) (toInt (column line 5)) (toInt (column line 6))
    (toInt (column line 7)) (toInt (column line 8)) (toInt (column line 9))
    (toDouble (column line 10)) (toInt (column line 11))

/-! ## Removing queries -/

/-- The iterator loop of `clearSomeQueries`: `i` is the position of the iterator in
`m_hits`; the hit at `i` is erased when its query is in `queriesToRemove`, otherwise
the iterator advances; the loop ends when `i` reaches the end. -/
def eraseHitsLoop (queriesToRemove : List (Option Ptr)) :
    Nat → List (BlastHit D) → Nat → List (BlastHit D)
  | 0, m_hits, _ => m_hits
  | fuel + 1, m_hits, i =>
    match m_hits.get? i with
    | none => m_hits
    | some hit =>
      let hitQuery := hit.m_query
      let hitIsForDeletedQuery := queriesToRemove.contains hitQuery
      if hitIsForDeletedQuery then eraseHitsLoop queriesToRemove fuel (m_hits.eraseIdx i) i
      else eraseHitsLoop queriesToRemove fuel m_hits (i + 1)

/-- `BlastSearch::clearSomeQueries`. Every iteration either erases a hit or advances
the iterator, so `m_hits.size()` iterations reach the end. -/
def clearSomeQueries (s : BlastSearch D) (queriesToRemove : List (Option Ptr)) :
    BlastSearch D :=
  { s with
    m_hits := eraseHitsLoop queriesToRemove s.m_hits.length s.m_hits 0
    m_queries := clearSomeQueriesOfStore s.m_queries queriesToRemove }

/-! ## Target selection -/

/-- The inner loop of `blastTargetChanged` from index `j` on: `hits` are the hits
`m_hits[j]`, `m_hits[j+1]`, ...; a hit of `currentQuery` is pushed at the back of the
list of its node. -/
def attachHitsOfQuery (currentQuery : Option Ptr) :
    List (BlastHit D) → Nat → (Ptr → List Nat) → (Ptr → List Nat)
  | [], _, m_blastHits => m_blastHits
  | hit :: hits, j, m_blastHits =>
    if hit.m_query = currentQuery then
      attachHitsOfQuery currentQuery hits (j + 1)
        (fun n => if n = hit.m_node then m_blastHits n ++ [j] else m_blastHits n)
    else attachHitsOfQuery currentQuery hits (j + 1) m_blastHits

/-- The outer loop of `blastTargetChanged` over the vector `queries`. -/
def attachHitsOfQueries (m_hits : List (BlastHit D)) :
    List (Option Ptr) → (Ptr → List Nat) → (Ptr → List Nat)
  | [], m_blastHits => m_blastHits
  | currentQuery :: queries, m_blastHits =>
    attachHitsOfQueries m_hits queries (attachHitsOfQuery currentQuery m_hits 0 m_blastHits)

/-- The name that selects every query. -/
def allTarget : QString := "all".toList

/-- `BlastSearch::blastTargetChanged`. -/
def blastTargetChanged (s : BlastSearch D) (g : AssemblyGraph) (queryName : QString) :
    AssemblyGraph :=
  let g := clearAllBlastHitPointers g
  let queries : List (Option Ptr) :=
    if queryName = allTarget then s.m_queries.map some
    else [getQueryFromName s queryName]
  { g with m_blastHits := attachHitsOfQueries s.m_hits queries g.m_blastHits }

/-! ## The automatic search -/

/-- Modelled from the spec: `BlastQueries::clearSearchResults` (in `blastqueries.cpp`),
section 4.5: clears the search results that the query store records, here the running
hit count of every query. -/
def clearSearchResults (query : Ptr → BlastQuery) : Ptr → BlastQuery :=
  fun p => { query p with m_hits := 0 }

/-- `BlastSearch::clearBlastHits`. -/
def clearBlastHits (s : BlastSearch D) : BlastSearch D :=
  { s with
    m_hits := []
    query := clearSearchResults s.query
    m_blastOutput := [] }

/-- Modelled from the spec: `BlastQueries::clearAllQueries` (in `blastqueries.cpp`),
section 4.1: empties the store. -/
def clearAllQueries (_m_queries : List Ptr) : List Ptr := []

/-- `BlastSearch::cleanUp`. The call `emptyTempDirectory()` only deletes files of the
scratch directory, which is not part of the state. -/
def cleanUp (s : BlastSearch D) : BlastSearch D :=
  let s := clearBlastHits s
  { s with m_queries := clearAllQueries s.m_queries }

/-- The address that `new BlastQuery(...)` returns: an address that no query of the
store has. -/
def newQueryAddress (m_queries : List Ptr) : Ptr := m_queries.foldl max 0 + 1

/-- Modelled from the spec: `BlastQueries::addQuery` (in `blastqueries.cpp`) applied to
`new BlastQuery(name, sequence)`, section 4.1: appends a new query, with no check of the
name; its hit count starts at zero. The caller has cleaned the name. -/
def addQuery (s : BlastSearch D) (name sequence : QString) : BlastSearch D :=
  let p := newQueryAddress s.m_queries
  { s with
    m_queries := s.m_queries ++ [p]
    query := fun a => if a = p then ⟨name, sequence, 0⟩ else s.query a }

/-- `BlastSearch::loadBlastQueriesFromFastaFile`. The name and sequence pairs are what
`readFastaFile` has read from the file; the loop adds one query per pair, under its
cleaned name. -/
def loadBlastQueriesFromFastaFile :
    List (QString × QString) → BlastSearch D → BlastSearch D
  | [], s => s
  | (name, sequence) :: records, s =>
    let queryName := cleanQueryName name
    loadBlastQueriesFromFastaFile records (addQuery s queryName sequence)

/-- The external steps of `doAutoBlastSearch`, in the order of the code. -/
inductive Step where
  | findMakeblastdb
  | buildBlastDatabase
  | findBlastn
  | findTblastn
  | runBlastSearch
  deriving DecidableEq, Repr

/-- What the collaborators of one run of `doAutoBlastSearch` do: the result of the three
calls of `findProgram`, the member `m_error` of the database worker after
`buildBlastDatabase()`, the pairs that `readFastaFile` reads, and for the search worker
its `m_error` after `runBlastSearch()` together with what it has made of
`g_blastSearch`. An empty `m_error` is a success. -/
structure Environment (D : Type) where
  makeblastdbFound : Bool
  buildError : QString
  fastaRecords : List (QString × QString)
  blastnFound : Bool
  tblastnFound : Bool
  runBlastSearch : BlastSearch D → QString × BlastSearch D

/-- The message for a program that `findProgram` does not find. -/
def notFoundMessage (programName : QString) : QString :=
  "Error: The program ".toList ++ programName ++
    " was not found.  Please install NCBI BLAST to use this feature.".toList

/-- What a run of `doAutoBlastSearch` leaves: the string it returns, the two global
objects, and the external steps it has attempted, in order. -/
structure AutoSearchResult (D : Type) where
  error : QString
  search : BlastSearch D
  graph : AssemblyGraph
  attempted : List Step

/-- `BlastSearch::doAutoBlastSearch`. -/
def doAutoBlastSearch (env : Environment D) (s : BlastSearch D) (g : AssemblyGraph) :
    AutoSearchResult D :=
  let s := cleanUp s
  if !env.makeblastdbFound then
    ⟨notFoundMessage "makeblastdb".toList, s, g, [Step.findMakeblastdb]⟩
  else if env.buildError ≠ [] then
    ⟨env.buildError, s, g, [Step.findMakeblastdb, Step.buildBlastDatabase]⟩
  else
    let s := loadBlastQueriesFromFastaFile env.fastaRecords s
    if !env.blastnFound then
      ⟨notFoundMessage "blastn".toList, s, g,
        [Step.findMakeblastdb, Step.buildBlastDatabase, Step.findBlastn]⟩
    else if !env.tblastnFound then
      ⟨notFoundMessage "tblastn".toList, s, g,
        [Step.findMakeblastdb, Step.buildBlastDatabase, Step.findBlastn, Step.findTblastn]⟩
    else
      let worker := env.runBlastSearch s
      if worker.1 ≠ [] then
        ⟨worker.1, worker.2, g,
          [Step.findMakeblastdb, Step.buildBlastDatabase, Step.findBlastn, Step.findTblastn,
            Step.runBlastSearch]⟩
      else
        ⟨[], worker.2, blastTargetChanged worker.2 g allTarget,
          [Step.findMakeblastdb, Step.buildBlastDatabase, Step.findBlastn, Step.findTblastn,
            Step.runBlastSearch]⟩

/-- The order in which the specification lists the steps. -/
def stepOrder : List Step :=
  [Step.findMakeblastdb, Step.buildBlastDatabase, Step.findBlastn, Step.findTblastn,
    Step.runBlastSearch]

/-- The message with which a step fails in the environment `env`, empty when the step
succeeds. The search worker runs on the session as cleaned and loaded with the queries. -/
def stepMessage (env : Environment D) (s : BlastSearch D) : Step → QString
  | Step.findMakeblastdb =>
    if env.makeblastdbFound then [] else notFoundMessage "makeblastdb".toList
  | Step.buildBlastDatabase => env.buildError
  | Step.findBlastn => if env.blastnFound then [] else notFoundMessage "blastn".toList
  | Step.findTblastn => if env.tblastnFound then [] else notFoundMessage "tblastn".toList
  | Step.runBlastSearch =>
    (env.runBlastSearch (loadBlastQueriesFromFastaFile env.fastaRecords (cleanUp s))).1

/-- The first message of a list that is not empty, the empty string when there is none:
the one string of the specification. -/
def firstErrorMessage : List QString → QString
  | [] => []
  | message :: messages => if message ≠ [] then message else firstErrorMessage messages

/-- The steps up to and including the first one that fails. -/
def stepsUntilFailure (env : Environment D) (s : BlastSearch D) : List Step → List Step
  | [] => []
  | step :: steps =>
    if stepMessage env s step = [] then step :: stepsUntilFailure env s steps else [step]

/-! ## Vocabulary of the later statements -/

/-- The lines for which the parser calls `getNodeNameFromString` (at least twelve
fields, node start not after node end) all have an underscore in their node label. -/
def LabelsHaveKey (lines : List QString) : Prop :=
  ∀ line ∈ lines, 12 ≤ (split '\t' line).length →
    toInt (column line 8) ≤ toInt (column line 9) → '_' ∈ column line 1

/-- The number of hits of a hit table that reference the query at address `p`. -/
def hitsOfQuery (m_hits : List (BlastHit D)) (p : Ptr) : Nat :=
  m_hits.countP (fun hit => decide (hit.m_query = some p))

/-! ## Example data -/

/-- A graph with the two nodes `"7"` (at address 70) and `"8"` (at address 80). -/
def exampleGraph : AssemblyGraph :=
  { m_deBruijnGraphNodes := fun n =>
      if n = "7".toList then some 70 else if n = "8".toList then some 80 else none
    m_blastHits := fun _ => [] }

/-- A session with the two queries `"Q1"` (at address 1) and `"Q2"` (at address 2) and
no hits; doubles are kept as the text they are read from. -/
def exampleSearch : BlastSearch QString :=
  { m_queries := [1, 2]
    query := fun p =>
      if p = 1 then ⟨"Q1".toList, "ACGT".toList, 0⟩ else ⟨"Q2".toList, "TTGA".toList, 0⟩
    m_hits := []
    m_blastOutput := [] }

/-- The example line of the specification. -/
def exampleLine : QString :=
  "Q1\tNODE_7_length_500\t98.5\t120\t2\t0\t1\t120\t10\t130\t1e-40\t220".toList

/-- A second valid line, for query `"Q2"` on node `"8"`. -/
def exampleLine2 : QString :=
  "Q2\tNODE_8_length_300\t91.0\t80\t5\t1\t3\t82\t40\t120\t2e-20\t95".toList

/-- A line on the reverse strand: node start 130, node end 10. -/
def reverseLine : QString :=
  "Q1\tNODE_7_length_500\t98.5\t120\t2\t0\t1\t120\t130\t10\t1e-40\t220".toList

/-- A line with three fields. -/
def shortLine : QString := "Q1\tNODE_7_length_500\t98.5".toList

/-- A valid line for a node `"9"` that the graph does not have. -/
def unknownNodeLine : QString :=
  "Q1\tNODE_9_length_500\t98.5\t120\t2\t0\t1\t120\t10\t130\t1e-40\t220".toList

/-- A valid line for a query `"Q3"` that the store does not have. -/
def unknownQueryLine : QString :=
  "Q3\tNODE_7_length_500\t98.5\t120\t2\t0\t1\t120\t10\t130\t1e-40\t220".toList

/-- The text of several lines, each ended by a newline. -/
def unlines (lines : List QString) : QString :=
  (lines.map (fun l => l ++ ['\n'])).flatten

/-- The hit of `exampleLine`. -/
def exampleHit : BlastHit QString :=
  BlastHit.mk (some 1) 70 "98.5".toList 120 2 0 1 120 10 130 "1e-40".toList 220

/-- A session in which one query is itself named `"all"` (at address 1); the other
query `"Q2"` (at address 2) has one hit, on the node at address 80. -/
def allNamedSearch : BlastSearch QString :=
  { m_queries := [1, 2]
    query := fun p =>
      if p = 1 then ⟨"all".toList, "ACGT".toList, 0⟩ else ⟨"Q2".toList, "TTGA".toList, 1⟩
    m_hits := [BlastHit.mk (some 2) 80 "91.0".toList 80 5 1 3 82 40 120 "2e-20".toList 95]
    m_blastOutput := [] }

/-- A session with three hits: `"Q1"` on node 70, `"Q2"` on node 80, `"Q2"` on node 70. -/
def threeHitSearch : BlastSearch QString :=
  { m_queries := [1, 2]
    query := fun p =>
      if p = 1 then ⟨"Q1".toList, "ACGT".toList, 1⟩ else ⟨"Q2".toList, "TTGA".toList, 2⟩
    m_hits :=
      [exampleHit,
       BlastHit.mk (some 2) 80 "91.0".toList 80 5 1 3 82 40 120 "2e-20".toList 95,
       BlastHit.mk (some 2) 70 "88.0".toList 60 7 2 5 64 200 260 "3e-10".toList 50]
    m_blastOutput := [] }

/-- A search worker that succeeds: it stores the given raw text and lets the parser
build the hits from it (the session is left alone if the parser leaves a list). -/
def exampleWorker (text : QString) (s : BlastSearch QString) : QString × BlastSearch QString :=
  match buildHitsFromBlastOutput id exampleGraph text { s with m_blastOutput := text } with
  | some s' => ([], s')
  | none => ([], s)

/-- An environment in which every step succeeds; the file has the two queries `"Q1"`
and `"Q2"`, the search gives the two example lines. -/
def exampleEnvironment : Environment QString :=
  { makeblastdbFound := true
    buildError := []
    fastaRecords := [("Q1".toList, "ACGT".toList), ("Q2".toList, "TTGA".toList)]
    blastnFound := true
    tblastnFound := true
    runBlastSearch := exampleWorker (unlines [exampleLine, exampleLine2]) }

/-- The same environment without the program `blastn`. -/
def noBlastnEnvironment : Environment QString :=
  { exampleEnvironment with blastnFound := false }

/-- The same environment with a database build that fails. -/
def buildFailsEnvironment : Environment QString :=
  { exampleEnvironment with buildError := "makeblastdb failed".toList }

/-- A batch with every kind of line: valid, reverse strand, valid, unknown node, valid. -/
def mixedText : QString :=
  unlines [exampleLine, reverseLine, exampleLine2, unknownNodeLine, exampleLine]

/-- A valid line whose node label has no underscore. -/
def noKeyLine : QString :=
  "Q1\tNODE7\t98.5\t120\t2\t0\t1\t120\t10\t130\t1e-40\t220".toList

/-- The example graph with stale hit pointers attached to its two nodes. -/
def staleGraph : AssemblyGraph :=
  { exampleGraph with m_blastHits := fun n => if n = 70 then [0, 2] else [1] }

/-! ## Lemmas on splitting -/

theorem split_ne_nil (sep : Char) (s : QString) : split sep s ≠ [] := by
  induction s with
  | nil => simp [split]
  | cons c cs ih =>
    unfold split
    split_ifs
    · simp
    · cases h : split sep cs <;> simp

theorem split_of_not_mem (sep : Char) (s : QString) (h : sep ∉ s) : split sep s = [s] := by
  induction s with
  | nil => rfl
  | cons c cs ih =>
    have hc : c ≠ sep := fun e => h (by simp [e])
    have hcs : sep ∉ cs := fun e => h (List.mem_cons_of_mem _ e)
    simp [split, hc, ih hcs]

theorem split_append_sep (sep : Char) (a b : QString) :
    split sep (a ++ sep :: b) = split sep a ++ split sep b := by
  induction a with
  | nil => simp [split]
  | cons c cs ih =>
    by_cases hc : c = sep
    · simp [split, hc, ih]
    · have hne := split_ne_nil sep cs
      cases hs : split sep cs with
      | nil => exact absurd hs hne
      | cons p ps => simp [split, hc, ih, hs]

theorem splitSkipEmptyParts_append_sep (sep : Char) (a b : QString) :
    splitSkipEmptyParts sep (a ++ sep :: b) =
      splitSkipEmptyParts sep a ++ splitSkipEmptyParts sep b := by
  simp [splitSkipEmptyParts, split_append_sep]

theorem splitSkipEmptyParts_line (sep : Char) (s : QString) (h : sep ∉ s) (hne : s ≠ []) :
    splitSkipEmptyParts sep s = [s] := by
  cases s with
  | nil => exact absurd rfl hne
  | cons c cs => simp [splitSkipEmptyParts, split_of_not_mem sep _ h]

theorem ne_nil_of_twelve_fields (line : QString) (h : 12 ≤ (split '\t' line).length) :
    line ≠ [] := by
  rintro rfl
  simp [split] at h

/-! ## Lemmas on the parser loop -/

theorem getQueryFromName_congr (s s' : BlastSearch D) (hq : s'.m_queries = s.m_queries)
    (hn : ∀ p, (s'.query p).m_name = (s.query p).m_name) (name : QString) :
    getQueryFromName s' name = getQueryFromName s name := by
  unfold getQueryFromName
  rw [hq]
  congr 1
  funext p
  rw [hn p]

theorem incrementHits_name (query : Ptr → BlastQuery) (q p : Ptr) :
    (incrementHits query q p).m_name = (query p).m_name := by
  unfold incrementHits
  split_ifs <;> rfl

theorem buildHitsLoop_short (toDouble : QString → D) (g : AssemblyGraph) (line : QString)
    (rest : List QString) (s : BlastSearch D) (h : (split '\t' line).length < 12) :
    buildHitsLoop toDouble g (line :: rest) s = some s := by
  simp [buildHitsLoop, h]

theorem buildHitsLoop_reverse (toDouble : QString → D) (g : AssemblyGraph) (line : QString)
    (rest : List QString) (s : BlastSearch D) (h12 : 12 ≤ (split '\t' line).length)
    (hrev : toInt (column line 8) > toInt (column line 9)) :
    buildHitsLoop toDouble g (line :: rest) s = buildHitsLoop toDouble g rest s := by
  have h : ¬ (split '\t' line).length < 12 := by omega
  simp only [column, gt_iff_lt, List.getD_eq_getElem?_getD] at hrev
  simp [buildHitsLoop, h, hrev]

theorem buildHitsLoop_unknown_node (toDouble : QString → D) (g : AssemblyGraph)
    (line : QString) (rest : List QString) (s : BlastSearch D) (key : QString)
    (h12 : 12 ≤ (split '\t' line).length)
    (hfwd : toInt (column line 8) ≤ toInt (column line 9))
    (hkey : (split '_' (column line 1)).get? 1 = some key)
    (hnode : g.m_deBruijnGraphNodes key = none) :
    buildHitsLoop toDouble g (line :: rest) s = some s := by
  have h : ¬ (split '\t' line).length < 12 := by omega
  have hf : ¬ toInt (column line 9) < toInt (column line 8) := by omega
  simp only [column, List.getD_eq_getElem?_getD, List.get?_eq_getElem?] at hfwd hkey hf
  simp [buildHitsLoop, h, hf, getNodeNameFromString, hkey, hnode]

theorem buildHitsLoop_unknown_query (toDouble : QString → D) (g : AssemblyGraph)
    (line : QString) (rest : List QString) (s : BlastSearch D) (key : QString) (node : Ptr)
    (h12 : 12 ≤ (split '\t' line).length)
    (hfwd : toInt (column line 8) ≤ toInt (column line 9))
    (hkey : (split '_' (column line 1)).get? 1 = some key)
    (hnode : g.m_deBruijnGraphNodes key = some node)
    (hquery : getQueryFromName s (column line 0) = none) :
    buildHitsLoop toDouble g (line :: rest) s = some s := by
  have h : ¬ (split '\t' line).length < 12 := by omega
  have hf : ¬ toInt (column line 9) < toInt (column line 8) := by omega
  simp only [column, List.getD_eq_getElem?_getD, List.get?_eq_getElem?] at hfwd hkey hf hquery
  simp [buildHitsLoop, h, hf, getNodeNameFromString, hkey, hnode, hquery]

theorem buildHitsLoop_valid (toDouble : QString → D) (g : AssemblyGraph)
    (line : QString) (rest : List QString) (s : BlastSearch D) (key : QString)
    (node q : Ptr)
    (h12 : 12 ≤ (split '\t' line).length)
    (hfwd : toInt (column line 8) ≤ toInt (column line 9))
    (hkey : (split '_' (column line 1)).get? 1 = some key)
    (hnode : g.m_deBruijnGraphNodes key = some node)
    (hquery : getQueryFromName s (column line 0) = some q) :
    buildHitsLoop toDouble g (line :: rest) s =
      buildHitsLoop toDouble g rest
        { s with
          m_hits := s.m_hits ++ [hitOfLine toDouble line q node]
          query := incrementHits s.query q } := by
  have h : ¬ (split '\t' line).length < 12 := by omega
  have hf : ¬ toInt (column line 9) < toInt (column line 8) := by omega
  simp only [column, List.getD_eq_getElem?_getD, List.get?_eq_getElem?] at hfwd hkey hf hquery
  simp [buildHitsLoop, h, hf, getNodeNameFromString, hkey, hnode, hquery, hitOfLine, column]

theorem buildHitsLoop_no_key (toDouble : QString → D) (g : AssemblyGraph)
    (line : QString) (rest : List QString) (s : BlastSearch D)
    (h12 : 12 ≤ (split '\t' line).length)
    (hfwd : toInt (column line 8) ≤ toInt (column line 9))
    (hkey : (split '_' (column line 1)).get? 1 = none) :
    buildHitsLoop toDouble g (line :: rest) s = none := by
  have h : ¬ (split '\t' line).length < 12 := by omega
  have hf : ¬ toInt (column line 9) < toInt (column line 8) := by omega
  simp only [column, List.getD_eq_getElem?_getD, List.get?_eq_getElem?] at hfwd hkey hf
  simp [buildHitsLoop, h, hf, getNodeNameFromString, hkey]

/-- What one iteration of the parser loop does with a line: it returns with the state
unchanged, or it leaves the bounds of a list, or it skips the line, or it appends the
hit of a valid line. -/
theorem buildHitsLoop_cases (toDouble : QString → D) (g : AssemblyGraph) (line : QString)
    (s : BlastSearch D) :
    (∀ rest, buildHitsLoop toDouble g (line :: rest) s = some s) ∨
    (∀ rest, buildHitsLoop toDouble g (line :: rest) s = none) ∨
    (∀ rest, buildHitsLoop toDouble g (line :: rest) s = buildHitsLoop toDouble g rest s) ∨
    (∃ key node q, 12 ≤ (split '\t' line).length ∧
      toInt (column line 8) ≤ toInt (column line 9) ∧
      (split '_' (column line 1)).get? 1 = some key ∧
      g.m_deBruijnGraphNodes key = some node ∧
      getQueryFromName s (column line 0) = some q ∧
      ∀ rest, buildHitsLoop toDouble g (line :: rest) s =
        buildHitsLoop toDouble g rest
          { s with
            m_hits := s.m_hits ++ [hitOfLine toDouble line q node]
            query := incrementHits s.query q }) := by
  by_cases h12 : (split '\t' line).length < 12
  · exact Or.inl fun rest => buildHitsLoop_short toDouble g line rest s h12
  have h12 : 12 ≤ (split '\t' line).length := by omega
  by_cases hrev : toInt (column line 8) > toInt (column line 9)
  · exact Or.inr (Or.inr (Or.inl fun rest => buildHitsLoop_reverse toDouble g line rest s h12 hrev))
  have hfwd : toInt (column line 8) ≤ toInt (column line 9) := by omega
  rcases Option.eq_none_or_eq_some ((split '_' (column line 1)).get? 1) with hkey | ⟨key, hkey⟩
  · exact Or.inr (Or.inl fun rest => buildHitsLoop_no_key toDouble g line rest s h12 hfwd hkey)
  rcases Option.eq_none_or_eq_some (g.m_deBruijnGraphNodes key) with hnode | ⟨node, hnode⟩
  · exact Or.inl fun rest =>
      buildHitsLoop_unknown_node toDouble g line rest s key h12 hfwd hkey hnode
  rcases Option.eq_none_or_eq_some (getQueryFromName s (column line 0)) with
    hquery | ⟨q, hquery⟩
  · exact Or.inl fun rest =>
      buildHitsLoop_unknown_query toDouble g line rest s key node h12 hfwd hkey hnode hquery
  · exact Or.inr (Or.inr (Or.inr ⟨key, node, q, h12, hfwd, hkey, hnode, hquery, fun rest =>
      buildHitsLoop_valid toDouble g line rest s key node q h12 hfwd hkey hnode hquery⟩))

/-- Two continuations that agree from every state with the query names of `s0` agree
after any common prefix of lines. -/
theorem buildHitsLoop_append_congr_names (toDouble : QString → D) (g : AssemblyGraph)
    (A B : List QString) (s0 : BlastSearch D)
    (h : ∀ s : BlastSearch D, s.m_queries = s0.m_queries →
      (∀ p, (s.query p).m_name = (s0.query p).m_name) →
      buildHitsLoop toDouble g A s = buildHitsLoop toDouble g B s)
    (pre : List QString) (s : BlastSearch D) (hq : s.m_queries = s0.m_queries)
    (hn : ∀ p, (s.query p).m_name = (s0.query p).m_name) :
    buildHitsLoop toDouble g (pre ++ A) s = buildHitsLoop toDouble g (pre ++ B) s := by
  induction pre generalizing s with
  | nil => exact h s hq hn
  | cons l pre ih =>
    simp only [List.cons_append]
    rcases buildHitsLoop_cases toDouble g l s with h1 | h1 | h1 | ⟨_, _, q, _, _, _, _, _, h1⟩
    · rw [h1, h1]
    · rw [h1, h1]
    · rw [h1, h1]; exact ih s hq hn
    · rw [h1, h1]
      exact ih _ hq (fun p => (incrementHits_name s.query q p).trans (hn p))

theorem ValidLine_congr (g : AssemblyGraph) (s s' : BlastSearch D)
    (hq : s'.m_queries = s.m_queries) (hn : ∀ p, (s'.query p).m_name = (s.query p).m_name)
    (line : QString) (h : ValidLine g s line) : ValidLine g s' line := by
  obtain ⟨h12, hfwd, hnode, q, hquery⟩ := h
  exact ⟨h12, hfwd, hnode, q, by rw [getQueryFromName_congr s s' hq hn]; exact hquery⟩

/-- A run of valid lines adds one hit per line and leaves the query names alone. -/
theorem buildHitsLoop_valid_lines (toDouble : QString → D) (g : AssemblyGraph)
    (pre : List QString) (s : BlastSearch D) (hvalid : ∀ l ∈ pre, ValidLine g s l) :
    ∃ (s1 : BlastSearch D) (new : List (BlastHit D)),
      (∀ tail, buildHitsLoop toDouble g (pre ++ tail) s = buildHitsLoop toDouble g tail s1) ∧
      s1.m_hits = s.m_hits ++ new ∧ new.length = pre.length ∧
      s1.m_queries = s.m_queries ∧ (∀ p, (s1.query p).m_name = (s.query p).m_name) := by
  induction pre generalizing s with
  | nil => exact ⟨s, [], fun _ => rfl, by simp, rfl, rfl, fun _ => rfl⟩
  | cons l pre ih =>
    obtain ⟨h12, hfwd, ⟨key, node, hkey, hnode⟩, q, hquery⟩ := hvalid l (List.mem_cons_self _ _)
    have hstep := fun rest =>
      buildHitsLoop_valid toDouble g l rest s key node q h12 hfwd hkey hnode hquery
    have hvalid2 : ∀ s2 : BlastSearch D, s2.m_queries = s.m_queries →
        (∀ p, (s2.query p).m_name = (s.query p).m_name) → ∀ l2 ∈ pre, ValidLine g s2 l2 :=
      fun s2 hq hn l2 hl2 =>
        ValidLine_congr g s s2 hq hn l2 (hvalid l2 (List.mem_cons_of_mem _ hl2))
    obtain ⟨s1, new, hrun, hhits, hlen, hqs, hnames⟩ :=
      ih { s with
            m_hits := s.m_hits ++ [hitOfLine toDouble l q node]
            query := incrementHits s.query q }
        (hvalid2 _ rfl (fun p => incrementHits_name s.query q p))
    refine ⟨s1, hitOfLine toDouble l q node :: new, ?_, ?_, ?_, hqs, ?_⟩
    · intro tail
      rw [List.cons_append, hstep, hrun]
    · rw [hhits]; simp
    · simp [hlen]
    · intro p
      exact (hnames p).trans (incrementHits_name s.query q p)

/-! ## The parser: claims -/

/-- Claim C1: a line with twelve (or more) tab-separated columns, node start at most
node end, a node identifier that is in the node table and a query name that the query
store resolves makes `buildHitsFromBlastOutput` append exactly one hit to the hit table
and add exactly one to the hit count of that query; the hit count of every other query
and the query store are unchanged. -/
theorem buildHits_valid_line_appends_one (toDouble : QString → D) (g : AssemblyGraph)
    (s : BlastSearch D) (line : QString) (node q : Ptr)
    (hline : '\n' ∉ line)
    (h12 : 12 ≤ (split '\t' line).length)
    (hfwd : toInt (column line 8) ≤ toInt (column line 9))
    (hnode : ∃ key, getNodeNameFromString (column line 1) = some key ∧
      g.m_deBruijnGraphNodes key = some node)
    (hquery : getQueryFromName s (column line 0) = some q) :
    ∃ s' hit, buildHitsFromBlastOutput toDouble g line s = some s' ∧
      s'.m_hits = s.m_hits ++ [hit] ∧
      (s'.query q).m_hits = (s.query q).m_hits + 1 ∧
      (∀ p, p ≠ q → s'.query p = s.query p) ∧
      s'.m_queries = s.m_queries := by
  obtain ⟨key, hkey, hnode⟩ := hnode
  refine ⟨{ s with
      m_hits := s.m_hits ++ [hitOfLine toDouble line q node]
      query := incrementHits s.query q }, hitOfLine toDouble line q node, ?_, rfl, ?_, ?_, rfl⟩
  · unfold buildHitsFromBlastOutput
    simp only [splitSkipEmptyParts_line '\n' line hline (ne_nil_of_twelve_fields line h12)]
    rw [buildHitsLoop_valid toDouble g line [] s key node q h12 hfwd hkey hnode hquery]
    rfl
  · simp [incrementHits]
  · intro p hp
    simp [incrementHits, hp]

/-- Claim C1 on the example line: one hit is appended and the count of `"Q1"` goes from
0 to 1. -/
theorem buildHits_valid_line_appends_one_witness :
    ∃ s' hit, buildHitsFromBlastOutput id exampleGraph exampleLine exampleSearch = some s' ∧
      s'.m_hits = exampleSearch.m_hits ++ [hit] ∧
      (s'.query 1).m_hits = (exampleSearch.query 1).m_hits + 1 ∧
      (∀ p, p ≠ 1 → s'.query p = exampleSearch.query p) ∧
      s'.m_queries = exampleSearch.m_queries :=
  buildHits_valid_line_appends_one id exampleGraph exampleSearch exampleLine 70 1
    (by decide) (by decide) (by decide) ⟨"7".toList, by decide, by decide⟩ (by decide)

/-- Claim C2: the hit appended for a valid line has the query resolved from column 0,
the node whose key is the second underscore-delimited token of column 1, and its ten
other fields read from columns 2 to 11 in order: percent identity, alignment length,
mismatches, gap opens, query start, query end, node start, node end, e-value and bit
score. -/
theorem buildHits_fields_positional (toDouble : QString → D) (g : AssemblyGraph)
    (s : BlastSearch D) (line key : QString) (node q : Ptr)
    (hline : '\n' ∉ line)
    (h12 : 12 ≤ (split '\t' line).length)
    (hfwd : toInt (column line 8) ≤ toInt (column line 9))
    (hkey : (split '_' (column line 1)).get? 1 = some key)
    (hnode : g.m_deBruijnGraphNodes key = some node)
    (hquery : getQueryFromName s (column line 0) = some q) :
    ∃ s', buildHitsFromBlastOutput toDouble g line s = some s' ∧
      s'.m_hits = s.m_hits ++
        [{ m_query := some q
           m_node := node
           m_percentIdentity := toDouble (column line 2)
           m_alignmentLength := toInt (column line 3)
           m_numberMismatches := toInt (column line 4)
           m_numberGapOpens := toInt (column line 5)
           m_queryStart := toInt (column line 6)
           m_queryEnd := toInt (column line 7)
           m_nodeStart := toInt (column line 8)
           m_nodeEnd := toInt (column line 9)
           m_eValue := toDouble (column line 10)
           m_bitScore := toInt (column line 11) }] := by
  refine ⟨{ s with
      m_hits := s.m_hits ++ [hitOfLine toDouble line q node]
      query := incrementHits s.query q }, ?_, rfl⟩
  unfold buildHitsFromBlastOutput
  simp only [splitSkipEmptyParts_line '\n' line hline (ne_nil_of_twelve_fields line h12)]
  rw [buildHitsLoop_valid toDouble g line [] s key node q h12 hfwd hkey hnode hquery]
  rfl

/-- Claim C2 on the example of the specification: the line of query `"Q1"` on
`NODE_7_length_500` gives the node key `"7"`, alignment length 120, node start 10, node
end 130, bit score 220, linked to query `"Q1"` (address 1) and node `"7"` (address 70). -/
theorem buildHits_fields_positional_witness :
    (split '_' (column exampleLine 1)).get? 1 = some "7".toList ∧
    exampleGraph.m_deBruijnGraphNodes "7".toList = some 70 ∧
    (exampleSearch.query 1).m_name = "Q1".toList ∧
    ∃ s', buildHitsFromBlastOutput id exampleGraph exampleLine exampleSearch = some s' ∧
      s'.m_hits =
        [{ m_query := some 1
           m_node := 70
           m_percentIdentity := "98.5".toList
           m_alignmentLength := 120
           m_numberMismatches := 2
           m_numberGapOpens := 0
           m_queryStart := 1
           m_queryEnd := 120
           m_nodeStart := 10
           m_nodeEnd := 130
           m_eValue := "1e-40".toList
           m_bitScore := 220 }] := by
  refine ⟨by decide, by decide, by decide, ?_⟩
  obtain ⟨s', h1, h2⟩ := buildHits_fields_positional id exampleGraph exampleSearch exampleLine
    "7".toList 70 1 (by decide) (by decide) (by decide) (by decide) (by decide) (by decide)
  refine ⟨s', h1, ?_⟩
  rw [h2]
  decide

/-- Claim C3: a line with at least twelve fields whose node start is greater than its
node end is skipped. From every state the loop goes on with the next line with the hit
table and the hit counts as they were, whatever the node label and the query name of
the line are; hence parsing a batch that contains the line gives the same result as
parsing the batch without it. -/
theorem buildHits_reverse_strand_skipped (toDouble : QString → D) (g : AssemblyGraph)
    (s : BlastSearch D) (text text2 : QString) (pre : List QString) (line : QString)
    (rest : List QString)
    (hsplit : splitSkipEmptyParts '\n' text = pre ++ line :: rest)
    (hsplit2 : splitSkipEmptyParts '\n' text2 = pre ++ rest)
    (h12 : 12 ≤ (split '\t' line).length)
    (hrev : toInt (column line 8) > toInt (column line 9)) :
    (∀ (s1 : BlastSearch D) (next : List QString),
      buildHitsLoop toDouble g (line :: next) s1 = buildHitsLoop toDouble g next s1) ∧
    buildHitsFromBlastOutput toDouble g text s = buildHitsFromBlastOutput toDouble g text2 s := by
  have hskip : ∀ (s1 : BlastSearch D) (next : List QString),
      buildHitsLoop toDouble g (line :: next) s1 = buildHitsLoop toDouble g next s1 :=
    fun s1 next => buildHitsLoop_reverse toDouble g line next s1 h12 hrev
  refine ⟨hskip, ?_⟩
  unfold buildHitsFromBlastOutput
  simp only [hsplit, hsplit2]
  exact buildHitsLoop_append_congr_names toDouble g (line :: rest) rest s
    (fun s1 _ _ => hskip s1 rest) pre s rfl (fun _ => rfl)

/-- Claim C3 on an example: a reverse-strand line between two valid lines changes
nothing; the two valid lines give their two hits. -/
theorem buildHits_reverse_strand_skipped_witness :
    (∀ (s1 : BlastSearch QString) (next : List QString),
      buildHitsLoop id exampleGraph (reverseLine :: next) s1 =
        buildHitsLoop id exampleGraph next s1) ∧
    buildHitsFromBlastOutput id exampleGraph
        (unlines [exampleLine, reverseLine, exampleLine2]) exampleSearch =
      buildHitsFromBlastOutput id exampleGraph
        (unlines [exampleLine, exampleLine2]) exampleSearch :=
  buildHits_reverse_strand_skipped id exampleGraph exampleSearch
    (unlines [exampleLine, reverseLine, exampleLine2]) (unlines [exampleLine, exampleLine2])
    [exampleLine] reverseLine [exampleLine2] (by decide) (by decide) (by decide) (by decide)

/-- Claim C4: when the non-empty lines of a batch are `k - 1` valid lines, then a line
with fewer than twelve fields, then anything, `buildHitsFromBlastOutput` returns
normally with exactly `k - 1` hits appended; the result is the one of the batch cut
before line `k`, and it does not depend on the lines after line `k`. -/
theorem buildHits_short_line_stops (toDouble : QString → D) (g : AssemblyGraph)
    (s : BlastSearch D) (text : QString) (pre : List QString) (bad : QString)
    (rest : List QString)
    (hsplit : splitSkipEmptyParts '\n' text = pre ++ bad :: rest)
    (hvalid : ∀ l ∈ pre, ValidLine g s l)
    (hbad : (split '\t' bad).length < 12) :
    ∃ s' new, buildHitsFromBlastOutput toDouble g text s = some s' ∧
      s'.m_hits = s.m_hits ++ new ∧ new.length = pre.length ∧
      (∀ textPre, splitSkipEmptyParts '\n' textPre = pre →
        buildHitsFromBlastOutput toDouble g textPre s = some s') ∧
      (∀ text2 rest2, splitSkipEmptyParts '\n' text2 = pre ++ bad :: rest2 →
        buildHitsFromBlastOutput toDouble g text2 s = some s') := by
  obtain ⟨s1, new, hrun, hhits, hlen, _, _⟩ := buildHitsLoop_valid_lines toDouble g pre s hvalid
  refine ⟨s1, new, ?_, hhits, hlen, ?_, ?_⟩
  · unfold buildHitsFromBlastOutput
    simp only [hsplit]
    rw [hrun, buildHitsLoop_short toDouble g bad rest s1 hbad]
  · intro textPre hpre
    unfold buildHitsFromBlastOutput
    simp only [hpre]
    have := hrun []
    rw [List.append_nil] at this
    rw [this]
    rfl
  · intro text2 rest2 h2
    unfold buildHitsFromBlastOutput
    simp only [h2]
    rw [hrun, buildHitsLoop_short toDouble g bad rest2 s1 hbad]

theorem validLine_exampleLine : ValidLine exampleGraph exampleSearch exampleLine :=
  ⟨by decide, by decide, ⟨"7".toList, 70, by decide, by decide⟩, ⟨1, by decide⟩⟩

theorem validLine_exampleLine2 : ValidLine exampleGraph exampleSearch exampleLine2 :=
  ⟨by decide, by decide, ⟨"8".toList, 80, by decide, by decide⟩, ⟨2, by decide⟩⟩

/-- Claim C4 on an example: two valid lines, a line of three fields, a valid line;
two hits are appended. -/
theorem buildHits_short_line_stops_witness :
    ∃ s' new, buildHitsFromBlastOutput id exampleGraph
        (unlines [exampleLine, exampleLine2, shortLine, exampleLine]) exampleSearch = some s' ∧
      s'.m_hits = exampleSearch.m_hits ++ new ∧ new.length = [exampleLine, exampleLine2].length ∧
      (∀ textPre, splitSkipEmptyParts '\n' textPre = [exampleLine, exampleLine2] →
        buildHitsFromBlastOutput id exampleGraph textPre exampleSearch = some s') ∧
      (∀ text2 rest2,
        splitSkipEmptyParts '\n' text2 = [exampleLine, exampleLine2] ++ shortLine :: rest2 →
        buildHitsFromBlastOutput id exampleGraph text2 exampleSearch = some s') :=
  buildHits_short_line_stops id exampleGraph exampleSearch
    (unlines [exampleLine, exampleLine2, shortLine, exampleLine])
    [exampleLine, exampleLine2] shortLine [exampleLine] (by decide)
    (by
      intro l hl
      simp only [List.mem_cons, List.mem_singleton, List.not_mem_nil, or_false] at hl
      rcases hl with rfl | rfl
      · exact validLine_exampleLine
      · exact validLine_exampleLine2)
    (by decide)

/-- Claim C5, as stated, fails: in the batch of the valid `exampleLine` followed by a
valid line for the unknown node `"9"`, the function returns normally (it is `void` and
reports nothing) and the hit of the first line is in the hit table afterwards. -/
theorem buildHits_unknown_node_keeps_earlier_hits :
    exampleSearch.m_hits = [] ∧
    (split '\t' unknownNodeLine).length = 12 ∧
    toInt (column unknownNodeLine 8) ≤ toInt (column unknownNodeLine 9) ∧
    getNodeNameFromString (column unknownNodeLine 1) = some "9".toList ∧
    exampleGraph.m_deBruijnGraphNodes "9".toList = none ∧
    (buildHitsFromBlastOutput id exampleGraph
      (unlines [exampleLine, unknownNodeLine]) exampleSearch).map (fun r => r.m_hits) =
      some [exampleHit] := by
  decide

/-- Claim C6: when a twelve-field forward-strand line of a batch has a node identifier
that is not in the node table, or a query name that the query store does not resolve,
`buildHitsFromBlastOutput` aborts there: the result is the one of the batch cut before
that line, so the line and every later line, valid or not, add no hit and no count. -/
theorem buildHits_unresolved_aborts (toDouble : QString → D) (g : AssemblyGraph)
    (s : BlastSearch D) (text textPre : QString) (pre : List QString) (bad : QString)
    (rest : List QString) (key : QString)
    (hsplit : splitSkipEmptyParts '\n' text = pre ++ bad :: rest)
    (hsplitPre : splitSkipEmptyParts '\n' textPre = pre)
    (h12 : 12 ≤ (split '\t' bad).length)
    (hfwd : toInt (column bad 8) ≤ toInt (column bad 9))
    (hkey : getNodeNameFromString (column bad 1) = some key)
    (hunresolved : g.m_deBruijnGraphNodes key = none ∨
      getQueryFromName s (column bad 0) = none) :
    buildHitsFromBlastOutput toDouble g text s =
      buildHitsFromBlastOutput toDouble g textPre s := by
  unfold buildHitsFromBlastOutput
  simp only [hsplit, hsplitPre]
  have hstop : ∀ s1 : BlastSearch D, s1.m_queries = s.m_queries →
      (∀ p, (s1.query p).m_name = (s.query p).m_name) →
      buildHitsLoop toDouble g (bad :: rest) s1 = buildHitsLoop toDouble g [] s1 := by
    intro s1 hq hn
    rcases Option.eq_none_or_eq_some (g.m_deBruijnGraphNodes key) with hnode | ⟨node, hnode⟩
    · rw [buildHitsLoop_unknown_node toDouble g bad rest s1 key h12 hfwd hkey hnode]
      rfl
    · have hquery : getQueryFromName s1 (column bad 0) = none := by
        rw [getQueryFromName_congr s s1 hq hn]
        rcases hunresolved with h | h
        · rw [hnode] at h; exact absurd h (by simp)
        · exact h
      rw [buildHitsLoop_unknown_query toDouble g bad rest s1 key node h12 hfwd hkey hnode hquery]
      rfl
  have := buildHitsLoop_append_congr_names toDouble g (bad :: rest) [] s hstop pre s rfl
    (fun _ => rfl)
  rw [List.append_nil] at this
  exact this

/-- Claim C6 on an example: a valid line, then a line for the unknown query `"Q3"`,
then a valid line; the result is the one of the first line alone. -/
theorem buildHits_unresolved_aborts_witness :
    buildHitsFromBlastOutput id exampleGraph
        (unlines [exampleLine, unknownQueryLine, exampleLine2]) exampleSearch =
      buildHitsFromBlastOutput id exampleGraph (unlines [exampleLine]) exampleSearch :=
  buildHits_unresolved_aborts id exampleGraph exampleSearch
    (unlines [exampleLine, unknownQueryLine, exampleLine2]) (unlines [exampleLine])
    [exampleLine] unknownQueryLine [exampleLine2] "7".toList
    (by decide) (by decide) (by decide) (by decide) (by decide) (Or.inr (by decide))

/-! ## Removing queries: claims -/

/-- The iterator loop with the iterator after `done` and enough fuel for what is left:
the hits before the iterator stay, the others are filtered. -/
theorem eraseHitsLoop_eq (queriesToRemove : List (Option Ptr)) (fuel : Nat)
    (done todo : List (BlastHit D)) (h : todo.length ≤ fuel) :
    eraseHitsLoop queriesToRemove fuel (done ++ todo) done.length =
      done ++ todo.filter (fun hit => !queriesToRemove.contains hit.m_query) := by
  induction fuel generalizing done todo with
  | zero =>
    have : todo = [] := List.length_eq_zero.mp (Nat.le_zero.mp h)
    subst this
    simp [eraseHitsLoop]
  | succ n ih =>
    cases todo with
    | nil => simp [eraseHitsLoop]
    | cons hit todo =>
      have hlen : todo.length ≤ n := by simpa using h
      have hget : (done ++ hit :: todo).get? done.length = some hit := by
        rw [List.get?_eq_getElem?, List.getElem?_append_right (le_refl _)]
        simp
      unfold eraseHitsLoop
      rw [hget]
      by_cases hmem : hit.m_query ∈ queriesToRemove
      · have hrm : queriesToRemove.contains hit.m_query = true := by simpa using hmem
        have herase : (done ++ hit :: todo).eraseIdx done.length = done ++ todo := by
          rw [List.eraseIdx_append_of_length_le (le_refl _)]
          simp
        simp only [hrm, if_true, herase]
        rw [ih done todo hlen, List.filter_cons_of_neg (by simp [hmem])]
      · have hrm : queriesToRemove.contains hit.m_query = false := by simpa using hmem
        have happ : done ++ hit :: todo = (done ++ [hit]) ++ todo := by simp
        have hl : done.length + 1 = (done ++ [hit]).length := by simp
        simp only [hrm, Bool.false_eq_true, if_false]
        rw [happ, hl, ih (done ++ [hit]) todo hlen, List.filter_cons_of_pos (by simp [hmem])]
        simp

/-- Claim C7: after `clearSomeQueries` with the queries `queriesToRemove`, the hit table
is the original table filtered to the hits whose query is not among them, in the
original order: no hit of a removed query remains, and every hit of another query is
kept. -/
theorem clearSomeQueries_filters_hits (s : BlastSearch D)
    (queriesToRemove : List (Option Ptr)) :
    (clearSomeQueries s queriesToRemove).m_hits =
      s.m_hits.filter (fun hit => !queriesToRemove.contains hit.m_query) ∧
    (clearSomeQueries s queriesToRemove).m_hits.Sublist s.m_hits ∧
    (∀ hit ∈ (clearSomeQueries s queriesToRemove).m_hits, hit.m_query ∉ queriesToRemove) ∧
    (∀ hit ∈ s.m_hits, hit.m_query ∉ queriesToRemove →
      hit ∈ (clearSomeQueries s queriesToRemove).m_hits) := by
  have heq : (clearSomeQueries s queriesToRemove).m_hits =
      s.m_hits.filter (fun hit => !queriesToRemove.contains hit.m_query) := by
    have := eraseHitsLoop_eq queriesToRemove s.m_hits.length [] s.m_hits (le_refl _)
    simpa [clearSomeQueries] using this
  refine ⟨heq, ?_, ?_, ?_⟩
  · rw [heq]; exact List.filter_sublist _
  · intro hit hhit
    rw [heq, List.mem_filter] at hhit
    simpa using hhit.2
  · intro hit hhit hnot
    rw [heq, List.mem_filter]
    exact ⟨hhit, by simpa using hnot⟩

/-! ## Target selection: claims -/

theorem attachHitsOfQuery_length (currentQuery : Option Ptr) (hits : List (BlastHit D))
    (j : Nat) (m_blastHits : Ptr → List Nat) (n : Ptr) :
    (attachHitsOfQuery currentQuery hits j m_blastHits n).length =
      (m_blastHits n).length +
        hits.countP (fun hit => decide (hit.m_node = n ∧ hit.m_query = currentQuery)) := by
  induction hits generalizing j m_blastHits with
  | nil => simp [attachHitsOfQuery]
  | cons hit hits ih =>
    unfold attachHitsOfQuery
    by_cases hq : hit.m_query = currentQuery
    · rw [if_pos hq, ih]
      by_cases hn : n = hit.m_node
      · subst hn
        simp [List.countP_cons, hq]
        omega
      · have hn2 : ¬ hit.m_node = n := fun e => hn e.symm
        simp [List.countP_cons, hn, hn2]
    · rw [if_neg hq, ih]
      simp [List.countP_cons, hq]

theorem attachHitsOfQueries_length (m_hits : List (BlastHit D)) (queries : List (Option Ptr))
    (m_blastHits : Ptr → List Nat) (n : Ptr) :
    (attachHitsOfQueries m_hits queries m_blastHits n).length =
      (m_blastHits n).length +
        (queries.map (fun currentQuery =>
          m_hits.countP (fun hit => decide (hit.m_node = n ∧ hit.m_query = currentQuery)))).sum := by
  induction queries generalizing m_blastHits with
  | nil => simp [attachHitsOfQueries]
  | cons currentQuery queries ih =>
    unfold attachHitsOfQueries
    rw [ih, attachHitsOfQuery_length]
    simp [Nat.add_assoc]

theorem countP_mem_nodup (m_hits : List (BlastHit D)) (queries : List (Option Ptr))
    (hnodup : queries.Nodup) (n : Ptr) :
    (queries.map (fun currentQuery =>
        m_hits.countP (fun hit => decide (hit.m_node = n ∧ hit.m_query = currentQuery)))).sum =
      m_hits.countP (fun hit => decide (hit.m_node = n ∧ hit.m_query ∈ queries)) := by
  induction queries with
  | nil => simp
  | cons q queries ih =>
    have hq : q ∉ queries := (List.nodup_cons.mp hnodup).1
    rw [List.map_cons, List.sum_cons, ih (List.nodup_cons.mp hnodup).2]
    clear ih
    induction m_hits with
    | nil => simp
    | cons hit m_hits ih2 =>
      simp only [List.countP_cons]
      by_cases hn : hit.m_node = n
      · by_cases h1 : hit.m_query = q
        · have h2 : hit.m_query ∉ queries := by rw [h1]; exact hq
          simp only [hn, h1, true_and, decide_True, if_true, List.mem_cons, true_or] at *
          simp only [hq, decide_False, Bool.false_eq_true, if_false] at *
          omega
        · by_cases h2 : hit.m_query ∈ queries
          · simp only [hn, h1, h2, true_and, decide_True, decide_False, if_true,
              Bool.false_eq_true, if_false, List.mem_cons, or_true, false_or] at *
            omega
          · simp only [hn, h1, h2, true_and, decide_True, decide_False,
              Bool.false_eq_true, if_false, List.mem_cons, or_self] at *
            omega
      · simp only [hn, false_and, decide_False, Bool.false_eq_true, if_false] at *
        omega

/-- Claim C8, as stated, fails for a query that is itself named `"all"`: in
`allNamedSearch` the name `"all"` resolves to the query at address 1, which has no hit,
yet after `blastTargetChanged("all")` the node at address 80 has one attached hit, the
hit of the other query. -/
theorem blastTargetChanged_query_named_all :
    getQueryFromName allNamedSearch "all".toList = some 1 ∧
    allNamedSearch.m_hits.countP
      (fun hit => decide (hit.m_node = 80 ∧ hit.m_query = some 1)) = 0 ∧
    ((blastTargetChanged allNamedSearch exampleGraph "all".toList).m_blastHits 80).length = 1 := by
  decide

/-- Claim C8, amended: for a query store of distinct query objects, after
`blastTargetChanged("all")` the number of hits attached to every node is the number of
hits of the hit table on that node whose query is in the store; after
`blastTargetChanged(name)` for a name other than `"all"` that the store resolves, it is
the number of hits of the hit table on that node that belong to the resolved query. -/
theorem blastTargetChanged_counts (s : BlastSearch D) (g : AssemblyGraph)
    (hnodup : s.m_queries.Nodup) :
    (∀ n, ((blastTargetChanged s g allTarget).m_blastHits n).length =
      s.m_hits.countP (fun hit => decide (hit.m_node = n ∧ hit.m_query ∈ s.m_queries.map some))) ∧
    (∀ name q, name ≠ allTarget → getQueryFromName s name = some q →
      ∀ n, ((blastTargetChanged s g name).m_blastHits n).length =
        s.m_hits.countP (fun hit => decide (hit.m_node = n ∧ hit.m_query = some q))) := by
  constructor
  · intro n
    have hnd : (s.m_queries.map some).Nodup :=
      hnodup.map (Option.some_injective _)
    simp only [blastTargetChanged, clearAllBlastHitPointers, if_true]
    rw [attachHitsOfQueries_length, countP_mem_nodup s.m_hits _ hnd n]
    simp
  · intro name q hname hq n
    simp only [blastTargetChanged, clearAllBlastHitPointers, if_neg hname, hq]
    rw [attachHitsOfQueries_length]
    simp

/-- Claim C8, amended, on an example with three hits: target `"all"` attaches two hits
to the node at address 70 and one to the node at address 80; target `"Q2"` attaches one
hit to each. -/
theorem blastTargetChanged_counts_witness :
    ((blastTargetChanged threeHitSearch exampleGraph allTarget).m_blastHits 70).length = 2 ∧
    ((blastTargetChanged threeHitSearch exampleGraph allTarget).m_blastHits 80).length = 1 ∧
    ((blastTargetChanged threeHitSearch exampleGraph "Q2".toList).m_blastHits 70).length = 1 ∧
    ((blastTargetChanged threeHitSearch exampleGraph "Q2".toList).m_blastHits 80).length = 1 :=
  have h := blastTargetChanged_counts threeHitSearch exampleGraph (by decide)
  ⟨(h.1 70).trans (by decide), (h.1 80).trans (by decide),
    (h.2 "Q2".toList 2 (by decide) (by decide) 70).trans (by decide),
    (h.2 "Q2".toList 2 (by decide) (by decide) 80).trans (by decide)⟩

/-! ## Lemmas on query names -/

theorem isSpace_underscore : isSpace '_' = false := by decide

theorem replaceWhitespace_no_space (s : QString) :
    ∀ c ∈ replaceWhitespace s, isSpace c = false := by
  intro c hc
  simp only [replaceWhitespace, List.mem_map] at hc
  obtain ⟨a, _, rfl⟩ := hc
  by_cases h : isSpace a = true
  · simp [h, isSpace_underscore]
  · simp [h]

/-- With fuel for every character the loop of `cleanQueryName` removes exactly the
maximal run of trailing dots. -/
theorem stripTrailingDots_fuel (fuel : Nat) (s : QString) (h : s.length ≤ fuel) :
    stripTrailingDots fuel s = (s.reverse.dropWhile (fun c => c == '.')).reverse := by
  induction fuel generalizing s with
  | zero =>
    have : s = [] := List.length_eq_zero.mp (Nat.le_zero.mp h)
    subst this
    rfl
  | succ n ih =>
    rcases List.eq_nil_or_concat s with rfl | ⟨t, c, rfl⟩
    · simp [stripTrailingDots]
    · by_cases hc : c = '.'
      · subst hc
        have hlen : t.length ≤ n := by simpa using h
        simp [stripTrailingDots, List.dropWhile_cons, ih t hlen]
      · simp [stripTrailingDots, List.dropWhile_cons, hc]

theorem cleanQueryName_eq_spec (s : QString) : cleanQueryName s = cleanQueryNameSpec s := by
  unfold cleanQueryName cleanQueryNameSpec
  exact stripTrailingDots_fuel _ _ (le_refl _)

theorem dropWhile_head_ne (p : Char → Bool) (l : QString) :
    ∀ c, (l.dropWhile p).head? = some c → p c = false := by
  induction l with
  | nil => intro c h; simp at h
  | cons a t ih =>
    intro c h
    by_cases ha : p a = true
    · rw [List.dropWhile_cons_of_pos ha] at h
      exact ih c h
    · rw [List.dropWhile_cons_of_neg ha] at h
      simp at h
      subst h
      simpa using ha

/-- Claim C9: on the header name `"contig 1.region.a.  "` the code returns
`"contig_1.region.a.__"`: the two trailing spaces become underscores, after which the
dot is no longer at the end and is kept. -/
theorem cleanQueryName_example :
    cleanQueryName "contig 1.region.a.  ".toList = "contig_1.region.a.__".toList := by
  decide

/-- Claim C9, as stated, fails: the result is not `"contig_1.region.a"`. -/
theorem cleanQueryName_example_not_spec :
    cleanQueryName "contig 1.region.a.  ".toList ≠ "contig_1.region.a".toList := by
  decide

/-- Claim C10: for every input the cleaned name contains no whitespace character, does
not end with a dot, and is the input with every whitespace character replaced by one
underscore and the maximal run of trailing dots then removed. -/
theorem cleanQueryName_normalized (s : QString) :
    (∀ c ∈ cleanQueryName s, isSpace c = false) ∧
    (cleanQueryName s).getLast? ≠ some '.' ∧
    cleanQueryName s = cleanQueryNameSpec s := by
  refine ⟨?_, ?_, cleanQueryName_eq_spec s⟩
  · intro c hc
    rw [cleanQueryName_eq_spec] at hc
    unfold cleanQueryNameSpec at hc
    rw [List.mem_reverse] at hc
    have hsub := (List.dropWhile_sublist (fun c => c == '.') (l := (List.map (fun c => if isSpace c = true then '_' else c) s).reverse)).subset hc
    rw [List.mem_reverse] at hsub
    exact replaceWhitespace_no_space s c hsub
  · rw [cleanQueryName_eq_spec]
    unfold cleanQueryNameSpec
    rw [List.getLast?_reverse]
    intro h
    have := dropWhile_head_ne _ _ _ h
    simp at this

/-! ## The automatic search: claims -/

theorem notFoundMessage_ne_nil (programName : QString) : notFoundMessage programName ≠ [] := by
  simp [notFoundMessage]

/-- Claim C11: `doAutoBlastSearch` returns the message of the first step that fails, in
the order makeblastdb lookup, database build, blastn lookup, tblastn lookup, search run,
and attempts no step after it; it returns the empty string exactly when every step
succeeds, and then every step has been attempted and the target `"all"` is selected. -/
theorem doAutoBlastSearch_first_failure (env : Environment D) (s : BlastSearch D)
    (g : AssemblyGraph) :
    (doAutoBlastSearch env s g).error =
      firstErrorMessage (stepOrder.map (stepMessage env s)) ∧
    (doAutoBlastSearch env s g).attempted = stepsUntilFailure env s stepOrder ∧
    ((doAutoBlastSearch env s g).error = [] ↔ ∀ step, stepMessage env s step = []) ∧
    ((doAutoBlastSearch env s g).error = [] →
      (doAutoBlastSearch env s g).attempted = stepOrder ∧
      (doAutoBlastSearch env s g).graph =
        blastTargetChanged (doAutoBlastSearch env s g).search g allTarget) := by
  have hnf := notFoundMessage_ne_nil
  by_cases h1 : env.makeblastdbFound = true
  swap
  · have h1 : env.makeblastdbFound = false := by simpa using h1
    refine ⟨?_, ?_, ⟨?_, ?_⟩, ?_⟩
    · simp [doAutoBlastSearch, stepOrder, stepMessage, firstErrorMessage, h1, hnf]
    · simp [doAutoBlastSearch, stepOrder, stepMessage, stepsUntilFailure, h1, hnf]
    · intro h; simp [doAutoBlastSearch, h1, hnf] at h
    · intro h; have := h Step.findMakeblastdb; simp [stepMessage, h1, hnf] at this
    · intro h; simp [doAutoBlastSearch, h1, hnf] at h
  by_cases h2 : env.buildError = []
  swap
  · refine ⟨?_, ?_, ⟨?_, ?_⟩, ?_⟩
    · simp [doAutoBlastSearch, stepOrder, stepMessage, firstErrorMessage, h1, h2]
    · simp [doAutoBlastSearch, stepOrder, stepMessage, stepsUntilFailure, h1, h2]
    · intro h; simp [doAutoBlastSearch, h1, h2] at h
    · intro h; have := h Step.buildBlastDatabase; simp [stepMessage, h2] at this
    · intro h; simp [doAutoBlastSearch, h1, h2] at h
  by_cases h3 : env.blastnFound = true
  swap
  · have h3 : env.blastnFound = false := by simpa using h3
    refine ⟨?_, ?_, ⟨?_, ?_⟩, ?_⟩
    · simp [doAutoBlastSearch, stepOrder, stepMessage, firstErrorMessage, h1, h2, h3, hnf]
    · simp [doAutoBlastSearch, stepOrder, stepMessage, stepsUntilFailure, h1, h2, h3, hnf]
    · intro h; simp [doAutoBlastSearch, h1, h2, h3, hnf] at h
    · intro h; have := h Step.findBlastn; simp [stepMessage, h3, hnf] at this
    · intro h; simp [doAutoBlastSearch, h1, h2, h3, hnf] at h
  by_cases h4 : env.tblastnFound = true
  swap
  · have h4 : env.tblastnFound = false := by simpa using h4
    refine ⟨?_, ?_, ⟨?_, ?_⟩, ?_⟩
    · simp [doAutoBlastSearch, stepOrder, stepMessage, firstErrorMessage, h1, h2, h3, h4, hnf]
    · simp [doAutoBlastSearch, stepOrder, stepMessage, stepsUntilFailure, h1, h2, h3, h4, hnf]
    · intro h; simp [doAutoBlastSearch, h1, h2, h3, h4, hnf] at h
    · intro h; have := h Step.findTblastn; simp [stepMessage, h4, hnf] at this
    · intro h; simp [doAutoBlastSearch, h1, h2, h3, h4, hnf] at h
  by_cases h5 :
      (env.runBlastSearch (loadBlastQueriesFromFastaFile env.fastaRecords (cleanUp s))).1 = []
  swap
  · refine ⟨?_, ?_, ⟨?_, ?_⟩, ?_⟩
    · simp [doAutoBlastSearch, stepOrder, stepMessage, firstErrorMessage, h1, h2, h3, h4, h5]
    · simp [doAutoBlastSearch, stepOrder, stepMessage, stepsUntilFailure, h1, h2, h3, h4, h5]
    · intro h; simp [doAutoBlastSearch, h1, h2, h3, h4, h5] at h
    · intro h; have := h Step.runBlastSearch; simp [stepMessage, h5] at this
    · intro h; simp [doAutoBlastSearch, h1, h2, h3, h4, h5] at h
  · refine ⟨?_, ?_, ⟨?_, ?_⟩, ?_⟩
    · simp [doAutoBlastSearch, stepOrder, stepMessage, firstErrorMessage, h1, h2, h3, h4, h5]
    · simp [doAutoBlastSearch, stepOrder, stepMessage, stepsUntilFailure, h1, h2, h3, h4, h5]
    · intro _ step
      cases step <;> simp [stepMessage, h1, h2, h3, h4, h5]
    · intro _; simp [doAutoBlastSearch, h1, h2, h3, h4, h5]
    · intro _; simp [doAutoBlastSearch, stepOrder, h1, h2, h3, h4, h5]

theorem loadBlastQueriesFromFastaFile_hits (records : List (QString × QString))
    (s : BlastSearch D) : (loadBlastQueriesFromFastaFile records s).m_hits = s.m_hits := by
  induction records generalizing s with
  | nil => rfl
  | cons r records ih =>
    obtain ⟨name, sequence⟩ := r
    simp only [loadBlastQueriesFromFastaFile]
    rw [ih]
    rfl

theorem loadBlastQueriesFromFastaFile_length (records : List (QString × QString))
    (s : BlastSearch D) :
    (loadBlastQueriesFromFastaFile records s).m_queries.length =
      s.m_queries.length + records.length := by
  induction records generalizing s with
  | nil => rfl
  | cons r records ih =>
    obtain ⟨name, sequence⟩ := r
    simp only [loadBlastQueriesFromFastaFile]
    rw [ih]
    simp [addQuery]
    omega

/-- Claim C12, as stated, fails: without the program `blastn` the run returns an error
string, after it has loaded the two queries of the file, and these stay in the query
store. -/
theorem doAutoBlastSearch_failure_keeps_queries :
    (doAutoBlastSearch noBlastnEnvironment exampleSearch exampleGraph).error =
      notFoundMessage "blastn".toList ∧
    (doAutoBlastSearch noBlastnEnvironment exampleSearch exampleGraph).error ≠ [] ∧
    (doAutoBlastSearch noBlastnEnvironment exampleSearch exampleGraph).search.m_queries =
      [1, 2] ∧
    (cleanUp exampleSearch).m_queries = [] := by
  decide

/-- Claim C12, amended: a run of `doAutoBlastSearch` that stops before the search is run
returns a non-empty error string and leaves the hit table empty and the graph as it
was; the session is the one `cleanUp` produces, with no queries, when the run has not
reached the blastn lookup (it failed at the makeblastdb lookup or at the database
build), and it holds the queries loaded from the query file, one per record, when the
run failed at the blastn or tblastn lookup. -/
theorem doAutoBlastSearch_state_after_failure (env : Environment D) (s : BlastSearch D)
    (g : AssemblyGraph)
    (hsearch : Step.runBlastSearch ∉ (doAutoBlastSearch env s g).attempted) :
    (doAutoBlastSearch env s g).error ≠ [] ∧
    (doAutoBlastSearch env s g).search.m_hits = [] ∧
    (doAutoBlastSearch env s g).graph = g ∧
    (Step.findBlastn ∉ (doAutoBlastSearch env s g).attempted →
      (doAutoBlastSearch env s g).search = cleanUp s ∧
      (doAutoBlastSearch env s g).search.m_queries = []) ∧
    (Step.findBlastn ∈ (doAutoBlastSearch env s g).attempted →
      (doAutoBlastSearch env s g).search =
        loadBlastQueriesFromFastaFile env.fastaRecords (cleanUp s) ∧
      (doAutoBlastSearch env s g).search.m_queries.length = env.fastaRecords.length) := by
  have hload_hits := loadBlastQueriesFromFastaFile_hits env.fastaRecords (cleanUp s)
  have hload_len := loadBlastQueriesFromFastaFile_length env.fastaRecords (cleanUp s)
  have hclean_hits : (cleanUp s).m_hits = [] := rfl
  have hclean_queries : (cleanUp s).m_queries = [] := rfl
  rw [hclean_hits] at hload_hits
  rw [hclean_queries] at hload_len
  simp only [List.length_nil, Nat.zero_add] at hload_len
  have hnf := notFoundMessage_ne_nil
  unfold doAutoBlastSearch at hsearch ⊢
  by_cases h1 : env.makeblastdbFound = true
  swap
  · have h1 : env.makeblastdbFound = false := by simpa using h1
    simp [h1, hclean_hits, hclean_queries, hnf]
  by_cases h2 : env.buildError = []
  swap
  · simp [h1, h2, hclean_hits, hclean_queries]
  by_cases h3 : env.blastnFound = true
  swap
  · have h3 : env.blastnFound = false := by simpa using h3
    simp [h1, h2, h3, hload_hits, hload_len, hnf]
  by_cases h4 : env.tblastnFound = true
  swap
  · have h4 : env.tblastnFound = false := by simpa using h4
    simp [h1, h2, h3, h4, hload_hits, hload_len, hnf]
  · exfalso
    by_cases h5 :
        (env.runBlastSearch (loadBlastQueriesFromFastaFile env.fastaRecords (cleanUp s))).1 = []
    · simp [h1, h2, h3, h4, h5] at hsearch
    · simp [h1, h2, h3, h4, h5] at hsearch

/-- Claim C12, amended, on two examples: a failing database build leaves the cleaned
session; a missing `blastn` leaves two queries and no hit. -/
theorem doAutoBlastSearch_state_after_failure_witness :
    (doAutoBlastSearch buildFailsEnvironment threeHitSearch exampleGraph).search.m_hits = [] ∧
    (doAutoBlastSearch buildFailsEnvironment threeHitSearch exampleGraph).search.m_queries = [] ∧
    (doAutoBlastSearch noBlastnEnvironment threeHitSearch exampleGraph).search.m_hits = [] ∧
    (doAutoBlastSearch noBlastnEnvironment threeHitSearch exampleGraph).search.m_queries.length
      = 2 :=
  have h1 := doAutoBlastSearch_state_after_failure buildFailsEnvironment threeHitSearch
    exampleGraph (by decide)
  have h2 := doAutoBlastSearch_state_after_failure noBlastnEnvironment threeHitSearch
    exampleGraph (by decide)
  ⟨h1.2.1, (h1.2.2.2.1 (by decide)).2, h2.2.1, (h2.2.2.2.2 (by decide)).2⟩

/-! ## Lemmas on what the parser returns -/

theorem split_head (sep : Char) (s : QString) :
    (split sep s).head? = some (s.takeWhile (fun c => c != sep)) := by
  induction s with
  | nil => rfl
  | cons c cs ih =>
    by_cases hc : c = sep
    · simp [split, hc]
    · cases hs : split sep cs with
      | nil => exact absurd hs (split_ne_nil sep cs)
      | cons p ps =>
        rw [hs] at ih
        simp only [List.head?_cons, Option.some.injEq] at ih
        simp [split, hc, hs, ih, List.takeWhile_cons]

/-- Element 1 of the split of a string with a separator: the text between the first
separator and the second one (or the end). -/
theorem split_second (sep : Char) (s : QString) (h : sep ∈ s) :
    (split sep s).get? 1 =
      some (((s.dropWhile (fun c => c != sep)).drop 1).takeWhile (fun c => c != sep)) := by
  induction s with
  | nil => simp at h
  | cons c cs ih =>
    by_cases hc : c = sep
    · subst hc
      have := split_head c cs
      cases hs : split c cs with
      | nil => exact absurd hs (split_ne_nil c cs)
      | cons p ps =>
        rw [hs] at this
        simp only [List.head?_cons, Option.some.injEq] at this
        simp [split, hs, this, List.dropWhile_cons]
    · have hmem : sep ∈ cs := by
        rcases List.mem_cons.mp h with h1 | h1
        · exact absurd h1.symm hc
        · exact h1
      have ih := ih hmem
      cases hs : split sep cs with
      | nil => exact absurd hs (split_ne_nil sep cs)
      | cons p ps =>
        rw [hs] at ih
        simp only [split, hc, if_false, hs]
        simp only [List.get?_eq_getElem?, List.getElem?_cons_succ] at ih ⊢
        rw [ih]
        simp [List.dropWhile_cons, hc]

theorem getNodeNameFromString_of_mem (label : QString) (h : '_' ∈ label) :
    getNodeNameFromString label =
      some (((label.dropWhile (fun c => c != '_')).drop 1).takeWhile (fun c => c != '_')) :=
  split_second '_' label h

theorem getNodeNameFromString_of_not_mem (label : QString) (h : '_' ∉ label) :
    getNodeNameFromString label = none := by
  simp [getNodeNameFromString, split_of_not_mem '_' label h]

/-- Under `LabelsHaveKey` the loop never leaves a list: it returns a state. -/
theorem buildHitsLoop_returns (toDouble : QString → D) (g : AssemblyGraph)
    (lines : List QString) (s : BlastSearch D) (hlabels : LabelsHaveKey lines) :
    ∃ s', buildHitsLoop toDouble g lines s = some s' := by
  induction lines generalizing s with
  | nil => exact ⟨s, rfl⟩
  | cons line rest ih =>
    have hrest : LabelsHaveKey rest := fun l hl => hlabels l (List.mem_cons_of_mem _ hl)
    rcases buildHitsLoop_cases toDouble g line s with h1 | h1 | h1 | ⟨_, _, _, _, _, _, _, _, h1⟩
    · exact ⟨s, h1 rest⟩
    · exfalso
      by_cases h12 : (split '\t' line).length < 12
      · have := buildHitsLoop_short toDouble g line rest s h12
        rw [h1 rest] at this
        exact absurd this (by simp)
      have h12 : 12 ≤ (split '\t' line).length := by omega
      by_cases hrev : toInt (column line 8) > toInt (column line 9)
      · have h2 := buildHitsLoop_reverse toDouble g line [] s h12 hrev
        rw [h1 []] at h2
        exact absurd h2 (by simp [buildHitsLoop])
      have hfwd : toInt (column line 8) ≤ toInt (column line 9) := by omega
      have hmem := hlabels line (List.mem_cons_self _ _) h12 hfwd
      have hkey := getNodeNameFromString_of_mem _ hmem
      rcases Option.eq_none_or_eq_some (g.m_deBruijnGraphNodes
        ((((column line 1).dropWhile (fun c => c != '_')).drop 1).takeWhile
          (fun c => c != '_'))) with hnode | ⟨node, hnode⟩
      · have := buildHitsLoop_unknown_node toDouble g line rest s _ h12 hfwd hkey hnode
        rw [h1 rest] at this
        exact absurd this (by simp)
      rcases Option.eq_none_or_eq_some (getQueryFromName s (column line 0)) with
        hquery | ⟨q, hquery⟩
      · have := buildHitsLoop_unknown_query toDouble g line rest s _ node h12 hfwd hkey hnode
          hquery
        rw [h1 rest] at this
        exact absurd this (by simp)
      · have := buildHitsLoop_valid toDouble g line [] s _ node q h12 hfwd hkey hnode hquery
        rw [h1 []] at this
        exact absurd this (by simp [buildHitsLoop])
    · rw [h1 rest]; exact ih s hrest
    · rw [h1 rest]; exact ih _ hrest

/-- When the loop leaves a list, one of its lines has at least twelve fields, node start
not after node end, and no underscore in its node label. -/
theorem buildHitsLoop_none (toDouble : QString → D) (g : AssemblyGraph)
    (lines : List QString) (s : BlastSearch D)
    (h : buildHitsLoop toDouble g lines s = none) :
    ∃ line ∈ lines, 12 ≤ (split '\t' line).length ∧
      toInt (column line 8) ≤ toInt (column line 9) ∧ '_' ∉ column line 1 := by
  by_contra hno
  have hlabels : LabelsHaveKey lines := by
    intro line hline h12 hfwd
    by_contra hmem
    exact hno ⟨line, hline, h12, hfwd, hmem⟩
  obtain ⟨s', hs'⟩ := buildHitsLoop_returns toDouble g lines s hlabels
  rw [h] at hs'
  exact absurd hs' (by simp)

/-- What the loop has done when it returns: it has appended hits, one for each of some
of the lines, in the order of these lines and each with node start not after node end
and a non-null query; the store and the names and sequences of the queries are as
before, and every hit count has grown by the number of appended hits of that query. -/
theorem buildHitsLoop_result (toDouble : QString → D) (g : AssemblyGraph)
    (lines : List QString) (s s' : BlastSearch D)
    (h : buildHitsLoop toDouble g lines s = some s') :
    ∃ (used : List QString) (new : List (BlastHit D)),
      s'.m_hits = s.m_hits ++ new ∧
      used.Sublist lines ∧
      List.Forall₂ (fun hit line =>
        toInt (column line 8) ≤ toInt (column line 9) ∧
        ∃ q node, hit = hitOfLine toDouble line q node) new used ∧
      s'.m_queries = s.m_queries ∧
      s'.m_blastOutput = s.m_blastOutput ∧
      ∀ p, (s'.query p).m_name = (s.query p).m_name ∧
        (s'.query p).m_sequence = (s.query p).m_sequence ∧
        (s'.query p).m_hits = (s.query p).m_hits + hitsOfQuery new p := by
  induction lines generalizing s with
  | nil =>
    simp only [buildHitsLoop, Option.some.injEq] at h
    subst h
    exact ⟨[], [], by simp, List.Sublist.slnil, List.Forall₂.nil, rfl, rfl,
      fun p => ⟨rfl, rfl, by simp [hitsOfQuery]⟩⟩
  | cons line rest ih =>
    rcases buildHitsLoop_cases toDouble g line s with h1 | h1 | h1 |
      ⟨key, node, q, h12, hfwd, hkey, hnode, hquery, h1⟩
    · rw [h1 rest, Option.some.injEq] at h
      subst h
      exact ⟨[], [], by simp, List.nil_sublist _, List.Forall₂.nil, rfl, rfl,
        fun p => ⟨rfl, rfl, by simp [hitsOfQuery]⟩⟩
    · rw [h1 rest] at h
      exact absurd h (by simp)
    · rw [h1 rest] at h
      obtain ⟨used, new, hh, hsub, hall, hq, ho, hp⟩ := ih s h
      exact ⟨used, new, hh, List.Sublist.cons _ hsub, hall, hq, ho, hp⟩
    · rw [h1 rest] at h
      obtain ⟨used, new, hh, hsub, hall, hq, ho, hp⟩ := ih _ h
      refine ⟨line :: used, hitOfLine toDouble line q node :: new, ?_, List.Sublist.cons₂ _ hsub,
        List.Forall₂.cons ⟨hfwd, q, node, rfl⟩ hall, hq, ho, ?_⟩
      · rw [hh]; simp
      · intro p
        obtain ⟨hn, hsq, hc⟩ := hp p
        refine ⟨hn.trans (incrementHits_name s.query q p), ?_, ?_⟩
        · rw [hsq]
          simp only [incrementHits]
          split_ifs <;> rfl
        · rw [hc]
          simp only [incrementHits, hitsOfQuery, List.countP_cons, hitOfLine]
          by_cases hpq : p = q
          · subst hpq
            simp
            omega
          · have hqp : ¬ q = p := fun e => hpq e.symm
            simp [hpq, hqp]

/-! ## Invariants of the parser: claims -/

theorem forall_left_of_forall₂ {α β : Type} (R : α → β → Prop) (P : α → Prop)
    (h : ∀ a b, R a b → P a) (l₁ : List α) (l₂ : List β) (hall : List.Forall₂ R l₁ l₂) :
    ∀ a ∈ l₁, P a := by
  induction hall with
  | nil => intro a ha; simp at ha
  | cons hfirst _ ih =>
    intro a ha
    rcases List.mem_cons.mp ha with rfl | hrest
    · exact h _ _ hfirst
    · exact ih a hrest

/-- Claim C14: from an empty hit table with every hit count at zero,
`buildHitsFromBlastOutput` on any raw text returns, unless a node label without an
underscore makes it leave a list, and in the state it returns every query's hit count
is the number of hits of the hit table that reference that query; this includes the
texts that stop at a malformed line or abort at an unresolved reference. -/
theorem buildHits_counts_match_table (toDouble : QString → D) (g : AssemblyGraph)
    (text : QString) (s : BlastSearch D)
    (hempty : s.m_hits = [])
    (hzero : ∀ p, (s.query p).m_hits = 0) :
    (∀ s', buildHitsFromBlastOutput toDouble g text s = some s' →
      ∀ p, (s'.query p).m_hits = hitsOfQuery s'.m_hits p) ∧
    (LabelsHaveKey (splitSkipEmptyParts '\n' text) →
      ∃ s', buildHitsFromBlastOutput toDouble g text s = some s') := by
  constructor
  · intro s' h p
    obtain ⟨used, new, hh, _, _, _, _, hp⟩ := buildHitsLoop_result toDouble g _ s s' h
    rw [(hp p).2.2, hh, hempty, hzero p]
    simp
  · intro hlabels
    exact buildHitsLoop_returns toDouble g _ s hlabels

/-- Claim C14 on an example with a skipped line and an abort at an unknown node: the
function returns, `"Q1"` and `"Q2"` have one hit each, as in the table. -/
theorem buildHits_counts_match_table_witness :
    ∃ s', buildHitsFromBlastOutput id exampleGraph mixedText exampleSearch = some s' ∧
      ∀ p, (s'.query p).m_hits = hitsOfQuery s'.m_hits p :=
  have h := buildHits_counts_match_table id exampleGraph mixedText exampleSearch
    (by decide) (by intro p; simp only [exampleSearch]; split_ifs <;> rfl)
  (h.2 (by unfold LabelsHaveKey; decide)).elim fun s' hs' => ⟨s', hs', h.1 s' hs'⟩

/-- Claim C15: every hit that `buildHitsFromBlastOutput` appends has node start at most
node end; so when every hit of the table has this before parsing, every hit has it in
the state that parsing any raw text returns, and also after `clearSomeQueries`. -/
theorem buildHits_forward_strand_invariant (toDouble : QString → D) (g : AssemblyGraph)
    (text : QString) (s : BlastSearch D)
    (hinv : ∀ hit ∈ s.m_hits, hit.m_nodeStart ≤ hit.m_nodeEnd) :
    (∀ s', buildHitsFromBlastOutput toDouble g text s = some s' →
      (∃ new, s'.m_hits = s.m_hits ++ new ∧ ∀ hit ∈ new, hit.m_nodeStart ≤ hit.m_nodeEnd) ∧
      ∀ hit ∈ s'.m_hits, hit.m_nodeStart ≤ hit.m_nodeEnd) ∧
    (LabelsHaveKey (splitSkipEmptyParts '\n' text) →
      ∃ s', buildHitsFromBlastOutput toDouble g text s = some s') ∧
    (∀ queriesToRemove, ∀ hit ∈ (clearSomeQueries s queriesToRemove).m_hits,
      hit.m_nodeStart ≤ hit.m_nodeEnd) := by
  refine ⟨?_, fun hlabels => buildHitsLoop_returns toDouble g _ s hlabels, ?_⟩
  · intro s' h
    obtain ⟨used, new, hh, _, hall, _, _, _⟩ := buildHitsLoop_result toDouble g _ s s' h
    have hnew : ∀ hit ∈ new, hit.m_nodeStart ≤ hit.m_nodeEnd :=
      forall_left_of_forall₂ _ (fun hit => hit.m_nodeStart ≤ hit.m_nodeEnd)
        (fun hit line hfirst => by
          obtain ⟨hfwd, q, node, rfl⟩ := hfirst
          exact hfwd) new used hall
    refine ⟨⟨new, hh, hnew⟩, ?_⟩
    intro hit hhit
    rw [hh] at hhit
    rcases List.mem_append.mp hhit with h1 | h1
    · exact hinv hit h1
    · exact hnew hit h1
  · intro queriesToRemove hit hhit
    have heq : (clearSomeQueries s queriesToRemove).m_hits =
        s.m_hits.filter (fun hit => !queriesToRemove.contains hit.m_query) := by
      have := eraseHitsLoop_eq queriesToRemove s.m_hits.length [] s.m_hits (le_refl _)
      simpa [clearSomeQueries] using this
    rw [heq] at hhit
    exact hinv hit (List.mem_of_mem_filter hhit)

/-- Claim C15 on an example: the table of three forward-strand hits keeps the invariant
through a batch with a reverse-strand line. -/
theorem buildHits_forward_strand_invariant_witness :
    (∃ s', buildHitsFromBlastOutput id exampleGraph mixedText threeHitSearch = some s' ∧
      ∀ hit ∈ s'.m_hits, hit.m_nodeStart ≤ hit.m_nodeEnd) ∧
    (∀ hit ∈ (clearSomeQueries threeHitSearch [some 2]).m_hits,
      hit.m_nodeStart ≤ hit.m_nodeEnd) :=
  have h := buildHits_forward_strand_invariant id exampleGraph mixedText threeHitSearch
    (by decide)
  ⟨(h.2.1 (by unfold LabelsHaveKey; decide)).elim fun s' hs' => ⟨s', hs', (h.1 s' hs').2⟩, h.2.2 [some 2]⟩

/-! ## Empty lines and append-only: claims -/

theorem splitSkipEmptyParts_nil (sep : Char) : splitSkipEmptyParts sep [] = [] := by
  simp [splitSkipEmptyParts, split]

theorem splitSkipEmptyParts_cons_sep (sep : Char) (t : QString) :
    splitSkipEmptyParts sep (sep :: t) = splitSkipEmptyParts sep t := by
  have := splitSkipEmptyParts_append_sep sep [] t
  simpa [splitSkipEmptyParts_nil] using this

theorem splitSkipEmptyParts_replicate_append (sep : Char) (n : Nat) (t : QString) :
    splitSkipEmptyParts sep (List.replicate n sep ++ t) = splitSkipEmptyParts sep t := by
  induction n with
  | zero => simp
  | succ n ih =>
    rw [List.replicate_succ, List.cons_append, splitSkipEmptyParts_cons_sep, ih]

theorem splitSkipEmptyParts_append_replicate (sep : Char) (n : Nat) (t : QString) :
    splitSkipEmptyParts sep (t ++ List.replicate n sep) = splitSkipEmptyParts sep t := by
  cases n with
  | zero => simp
  | succ n =>
    have h := splitSkipEmptyParts_replicate_append sep n []
    rw [List.append_nil, splitSkipEmptyParts_nil] at h
    rw [List.replicate_succ, splitSkipEmptyParts_append_sep, h, List.append_nil]

/-- Claim C16: empty lines are ignored by `buildHitsFromBlastOutput`. For every raw
text, newline characters added at the start, at the end, or after the newline between
two lines give the same result (hit table, hit counts, or the same stop); and no empty
line is among the lines the loop reads, so none is taken for a line of fewer than
twelve fields. -/
theorem buildHits_ignores_empty_lines (toDouble : QString → D) (g : AssemblyGraph)
    (s : BlastSearch D) (n : Nat) :
    (∀ text, buildHitsFromBlastOutput toDouble g (List.replicate n '\n' ++ text) s =
      buildHitsFromBlastOutput toDouble g text s) ∧
    (∀ text, buildHitsFromBlastOutput toDouble g (text ++ List.replicate n '\n') s =
      buildHitsFromBlastOutput toDouble g text s) ∧
    (∀ a b, buildHitsFromBlastOutput toDouble g (a ++ '\n' :: (List.replicate n '\n' ++ b)) s =
      buildHitsFromBlastOutput toDouble g (a ++ '\n' :: b) s) ∧
    (∀ text, [] ∉ splitSkipEmptyParts '\n' text) := by
  refine ⟨?_, ?_, ?_, ?_⟩
  · intro text
    simp only [buildHitsFromBlastOutput, splitSkipEmptyParts_replicate_append]
  · intro text
    simp only [buildHitsFromBlastOutput, splitSkipEmptyParts_append_replicate]
  · intro a b
    simp only [buildHitsFromBlastOutput, splitSkipEmptyParts_append_sep,
      splitSkipEmptyParts_replicate_append]
  · intro text hmem
    simp [splitSkipEmptyParts] at hmem

/-- Claim C17: hits are append-only within one parse pass. In the state that
`buildHitsFromBlastOutput` returns, the hit table is the prior table followed by the
new hits, and the new hits are the hits of some of the lines of the text, in the order
of these lines. -/
theorem buildHits_append_only (toDouble : QString → D) (g : AssemblyGraph)
    (text : QString) (s : BlastSearch D) :
    (∀ s', buildHitsFromBlastOutput toDouble g text s = some s' →
      ∃ (used : List QString) (new : List (BlastHit D)),
        s'.m_hits = s.m_hits ++ new ∧
        used.Sublist (splitSkipEmptyParts '\n' text) ∧
        List.Forall₂ (fun hit line => ∃ q node, hit = hitOfLine toDouble line q node)
          new used) ∧
    (LabelsHaveKey (splitSkipEmptyParts '\n' text) →
      ∃ s', buildHitsFromBlastOutput toDouble g text s = some s') := by
  refine ⟨?_, fun hlabels => buildHitsLoop_returns toDouble g _ s hlabels⟩
  intro s' h
  obtain ⟨used, new, hh, hsub, hall, _, _, _⟩ := buildHitsLoop_result toDouble g _ s s' h
  exact ⟨used, new, hh, hsub, hall.imp (fun _ _ hr => hr.2)⟩

/-! ## Query names, again: claims -/

theorem cleanQueryNameSpec_no_space (s : QString) :
    ∀ c ∈ cleanQueryNameSpec s, isSpace c = false := by
  intro c hc
  unfold cleanQueryNameSpec at hc
  rw [List.mem_reverse] at hc
  have hsub := (List.dropWhile_sublist (fun c => c == '.')
    (l := (List.map (fun c => if isSpace c = true then '_' else c) s).reverse)).subset hc
  rw [List.mem_reverse] at hsub
  exact replaceWhitespace_no_space s c hsub

theorem cleanQueryNameSpec_reverse_head (s : QString) :
    ∀ c, (cleanQueryNameSpec s).reverse.head? = some c → (c == '.') = false := by
  intro c hc
  unfold cleanQueryNameSpec at hc
  rw [List.reverse_reverse] at hc
  exact dropWhile_head_ne _ _ c hc

theorem replaceWhitespace_of_no_space (s : QString) (h : ∀ c ∈ s, isSpace c = false) :
    replaceWhitespace s = s := by
  unfold replaceWhitespace
  induction s with
  | nil => rfl
  | cons c cs ih =>
    have hc := h c (List.mem_cons_self _ _)
    simp only [List.map_cons, hc, Bool.false_eq_true, if_false]
    rw [ih (fun a ha => h a (List.mem_cons_of_mem _ ha))]

theorem dropWhile_of_head (p : Char → Bool) (l : QString)
    (h : ∀ c, l.head? = some c → p c = false) : l.dropWhile p = l := by
  cases l with
  | nil => rfl
  | cons a t =>
    have := h a rfl
    simp [List.dropWhile_cons, this]

theorem dropWhile_replicate (p : Char → Bool) (a : Char) (h : p a = true) (n : Nat) :
    (List.replicate n a).dropWhile p = [] := by
  induction n with
  | zero => rfl
  | succ n ih => simp [List.replicate_succ, List.dropWhile_cons, h, ih]

/-- Claim C18: `cleanQueryName` is idempotent, and its loop ends for every input: the
loop run with the length of the name as fuel, or with any larger fuel, gives the same
name. The empty string and a string of dots alone both clean to the empty string. -/
theorem cleanQueryName_idempotent (s : QString) :
    cleanQueryName (cleanQueryName s) = cleanQueryName s ∧
    (∀ extra, stripTrailingDots ((replaceWhitespace s).length + extra) (replaceWhitespace s) =
      cleanQueryName s) ∧
    cleanQueryName [] = [] ∧
    (∀ n, cleanQueryName (List.replicate n '.') = []) := by
  refine ⟨?_, ?_, rfl, ?_⟩
  · rw [cleanQueryName_eq_spec s]
    have h1 := replaceWhitespace_of_no_space _ (cleanQueryNameSpec_no_space s)
    have h2 := dropWhile_of_head (fun c => c == '.') _ (cleanQueryNameSpec_reverse_head s)
    rw [cleanQueryName_eq_spec (cleanQueryNameSpec s)]
    show ((replaceWhitespace (cleanQueryNameSpec s)).reverse.dropWhile
      (fun c => c == '.')).reverse = cleanQueryNameSpec s
    rw [h1, h2, List.reverse_reverse]
  · intro extra
    rw [stripTrailingDots_fuel _ _ (Nat.le_add_right _ _)]
    unfold cleanQueryName
    rw [stripTrailingDots_fuel _ _ (le_refl _)]
  · intro n
    rw [cleanQueryName_eq_spec]
    unfold cleanQueryNameSpec
    have hmap : List.map (fun c => if isSpace c = true then '_' else c) (List.replicate n '.') =
        List.replicate n '.' := by
      simp [List.map_replicate, show isSpace '.' = false by decide]
    rw [hmap, List.reverse_replicate, dropWhile_replicate _ _ (by decide)]
    rfl

/-! ## Target selection, again: claims -/

theorem attachHitsOfQuery_mem (currentQuery : Option Ptr) (hits : List (BlastHit D))
    (j0 : Nat) (m_blastHits : Ptr → List Nat) (n : Ptr) (j : Nat)
    (h : j ∈ attachHitsOfQuery currentQuery hits j0 m_blastHits n) :
    j ∈ m_blastHits n ∨
      ∃ k hit, hits.get? k = some hit ∧ j = j0 + k ∧ hit.m_node = n ∧
        hit.m_query = currentQuery := by
  induction hits generalizing j0 m_blastHits with
  | nil => exact Or.inl h
  | cons hit hits ih =>
    unfold attachHitsOfQuery at h
    by_cases hq : hit.m_query = currentQuery
    · rw [if_pos hq] at h
      rcases ih _ _ h with h1 | ⟨k, hit2, hk, hj, hn, hq2⟩
      · by_cases hn : n = hit.m_node
        · simp only [hn, if_true, List.mem_append, List.mem_singleton] at h1
          rcases h1 with h1 | h1
          · exact Or.inl (by rw [hn]; exact h1)
          · exact Or.inr ⟨0, hit, rfl, by omega, hn.symm, hq⟩
        · simp only [hn, if_false] at h1
          exact Or.inl h1
      · exact Or.inr ⟨k + 1, hit2, by simpa using hk, by omega, hn, hq2⟩
    · rw [if_neg hq] at h
      rcases ih _ _ h with h1 | ⟨k, hit2, hk, hj, hn, hq2⟩
      · exact Or.inl h1
      · exact Or.inr ⟨k + 1, hit2, by simpa using hk, by omega, hn, hq2⟩

theorem attachHitsOfQueries_mem (m_hits : List (BlastHit D)) (queries : List (Option Ptr))
    (m_blastHits : Ptr → List Nat) (n : Ptr) (j : Nat)
    (h : j ∈ attachHitsOfQueries m_hits queries m_blastHits n) :
    j ∈ m_blastHits n ∨
      ∃ hit, m_hits.get? j = some hit ∧ hit.m_node = n ∧ hit.m_query ∈ queries := by
  induction queries generalizing m_blastHits with
  | nil => exact Or.inl h
  | cons currentQuery queries ih =>
    unfold attachHitsOfQueries at h
    rcases ih _ h with h1 | ⟨hit, hk, hn, hq⟩
    · rcases attachHitsOfQuery_mem currentQuery m_hits 0 m_blastHits n j h1 with
        h2 | ⟨k, hit, hk, hj, hn, hq⟩
      · exact Or.inl h2
      · have hjk : j = k := by omega
        subst hjk
        exact Or.inr ⟨hit, hk, hn, by simp [hq]⟩
    · exact Or.inr ⟨hit, hk, hn, List.mem_cons_of_mem _ hq⟩

theorem attachHitsOfQuery_none (currentQuery : Option Ptr) (hits : List (BlastHit D))
    (j : Nat) (m_blastHits : Ptr → List Nat)
    (h : ∀ hit ∈ hits, hit.m_query ≠ currentQuery) :
    attachHitsOfQuery currentQuery hits j m_blastHits = m_blastHits := by
  induction hits generalizing j with
  | nil => rfl
  | cons hit hits ih =>
    unfold attachHitsOfQuery
    rw [if_neg (h hit (List.mem_cons_self _ _))]
    exact ih (j + 1) (fun hit2 h2 => h hit2 (List.mem_cons_of_mem _ h2))

/-- Claim C13: no stale cross-reference survives a target change. The lists after
`blastTargetChanged` do not depend on what the graph held before; a target change after
another one leaves what the second one alone leaves; the same target twice is the same
as once; and every attached hit pointer is a hit of the current hit table on that
node. -/
theorem blastTargetChanged_no_stale (s : BlastSearch D) (g g2 : AssemblyGraph)
    (a b : QString) :
    (blastTargetChanged s g b).m_blastHits = (blastTargetChanged s g2 b).m_blastHits ∧
    blastTargetChanged s (blastTargetChanged s g a) b = blastTargetChanged s g b ∧
    blastTargetChanged s (blastTargetChanged s g b) b = blastTargetChanged s g b ∧
    (∀ n j, j ∈ (blastTargetChanged s g b).m_blastHits n →
      ∃ hit, s.m_hits.get? j = some hit ∧ hit.m_node = n) := by
  refine ⟨rfl, rfl, rfl, ?_⟩
  intro n j hj
  simp only [blastTargetChanged, clearAllBlastHitPointers] at hj
  rcases attachHitsOfQueries_mem _ _ _ n j hj with h1 | ⟨hit, hk, hn, _⟩
  · simp at h1
  · exact ⟨hit, hk, hn⟩

/-- Claim C20: when no hit of the table has a null query before parsing, no hit has one
in the state that `buildHitsFromBlastOutput` returns; then for a name other than `"all"`
that the query store does not resolve, the null pointer that `blastTargetChanged` looks
for matches no hit, so that no hit and no node is reached through it, and every node is
left with an empty list. -/
theorem blastTargetChanged_unresolved_name (toDouble : QString → D) (g : AssemblyGraph)
    (text : QString) (s : BlastSearch D) (name : QString)
    (hnonnull : ∀ hit ∈ s.m_hits, hit.m_query ≠ none)
    (hname : name ≠ allTarget)
    (hunresolved : getQueryFromName s name = none) :
    (∀ s', buildHitsFromBlastOutput toDouble g text s = some s' →
      getQueryFromName s' name = none ∧
      (∀ hit ∈ s'.m_hits, hit.m_query ≠ getQueryFromName s' name) ∧
      ∀ g2 n, (blastTargetChanged s' g2 name).m_blastHits n = []) ∧
    (LabelsHaveKey (splitSkipEmptyParts '\n' text) →
      ∃ s', buildHitsFromBlastOutput toDouble g text s = some s') := by
  refine ⟨?_, fun hlabels => buildHitsLoop_returns toDouble g _ s hlabels⟩
  intro s' h
  obtain ⟨used, new, hh, _, hall, hq, _, hp⟩ := buildHitsLoop_result toDouble g _ s s' h
  have hres : getQueryFromName s' name = none := by
    rw [getQueryFromName_congr s s' hq (fun p => (hp p).1)]
    exact hunresolved
  have hnew : ∀ hit ∈ new, hit.m_query ≠ none :=
    forall_left_of_forall₂ _ (fun hit => hit.m_query ≠ none)
      (fun hit line hfirst => by
        obtain ⟨_, q, node, rfl⟩ := hfirst
        simp [hitOfLine]) new used hall
  have hall' : ∀ hit ∈ s'.m_hits, hit.m_query ≠ none := by
    intro hit hhit
    rw [hh] at hhit
    rcases List.mem_append.mp hhit with h1 | h1
    · exact hnonnull hit h1
    · exact hnew hit h1
  refine ⟨hres, by rw [hres]; exact hall', ?_⟩
  intro g2 n
  simp only [blastTargetChanged, clearAllBlastHitPointers, if_neg hname, hres,
    attachHitsOfQueries]
  rw [attachHitsOfQuery_none none s'.m_hits 0 _ hall']

/-- Claim C20 on an example: after the two example lines, the target `"Q9"`, which the
store does not have, leaves every node without attached hits. -/
theorem blastTargetChanged_unresolved_name_witness :
    ∃ s', buildHitsFromBlastOutput id exampleGraph (unlines [exampleLine, exampleLine2])
        exampleSearch = some s' ∧
      (∀ hit ∈ s'.m_hits, hit.m_query ≠ getQueryFromName s' "Q9".toList) ∧
      ∀ n, (blastTargetChanged s' staleGraph "Q9".toList).m_blastHits n = [] :=
  have h := blastTargetChanged_unresolved_name id exampleGraph
    (unlines [exampleLine, exampleLine2]) exampleSearch "Q9".toList
    (by decide) (by decide) (by decide)
  (h.2 (by unfold LabelsHaveKey; decide)).elim fun s' hs' =>
    ⟨s', hs', (h.1 s' hs').2.1, (h.1 s' hs').2.2 staleGraph⟩

/-! ## The node name: claims -/

/-- Claim C19: for every node label with an underscore, element 1 of the split exists
and `getNodeNameFromString` returns the text between the first underscore and the
second one (or the end of the label); without an underscore the access is out of range.
`buildHitsFromBlastOutput` leaves a list only at a line of at least twelve fields with
node start not after node end whose label has no underscore; so when every such line
has an underscore in its label, it returns. -/
theorem getNodeNameFromString_in_range (toDouble : QString → D) (g : AssemblyGraph)
    (s : BlastSearch D) :
    (∀ label, '_' ∈ label → getNodeNameFromString label =
      some (((label.dropWhile (fun c => c != '_')).drop 1).takeWhile (fun c => c != '_'))) ∧
    (∀ label, '_' ∉ label → getNodeNameFromString label = none) ∧
    (∀ text, buildHitsFromBlastOutput toDouble g text s = none →
      ∃ line ∈ splitSkipEmptyParts '\n' text, 12 ≤ (split '\t' line).length ∧
        toInt (column line 8) ≤ toInt (column line 9) ∧ '_' ∉ column line 1) ∧
    (∀ text, LabelsHaveKey (splitSkipEmptyParts '\n' text) →
      ∃ s', buildHitsFromBlastOutput toDouble g text s = some s') :=
  ⟨getNodeNameFromString_of_mem, getNodeNameFromString_of_not_mem,
    fun _ h => buildHitsLoop_none toDouble g _ s h,
    fun _ hlabels => buildHitsLoop_returns toDouble g _ s hlabels⟩

/-- The out-of-range branch can be reached: a valid line whose node label `NODE7` has no
underscore makes the parser leave the list. -/
theorem buildHits_noKeyLine :
    (buildHitsFromBlastOutput id exampleGraph noKeyLine exampleSearch).isNone = true := by
  decide

/-! ## The stop at an unknown node: claims -/

/-- Claim C5, amended: for every batch in which a twelve-field forward-strand line has a
node identifier that is not in the node table, `buildHitsFromBlastOutput` stops at that
line and reports no failure: whatever the earlier lines are, its result is the result
of the batch cut before that line, so the line and the later lines add nothing and the
hits of the earlier lines stay. It returns a state, with the prior hit table followed by
the hits of the earlier lines, whenever the earlier lines that reach
`getNodeNameFromString` have an underscore in their label; when the earlier lines are
all valid, these are exactly one hit per earlier line. -/
theorem buildHits_unknown_node_stops (toDouble : QString → D) (g : AssemblyGraph)
    (s : BlastSearch D) (text : QString) (pre : List QString) (bad : QString)
    (rest : List QString) (key : QString)
    (hsplit : splitSkipEmptyParts '\n' text = pre ++ bad :: rest)
    (h12 : 12 ≤ (split '\t' bad).length)
    (hfwd : toInt (column bad 8) ≤ toInt (column bad 9))
    (hkey : getNodeNameFromString (column bad 1) = some key)
    (hnode : g.m_deBruijnGraphNodes key = none) :
    (∀ textPre, splitSkipEmptyParts '\n' textPre = pre →
      buildHitsFromBlastOutput toDouble g text s =
        buildHitsFromBlastOutput toDouble g textPre s) ∧
    (∀ text2 rest2, splitSkipEmptyParts '\n' text2 = pre ++ bad :: rest2 →
      buildHitsFromBlastOutput toDouble g text2 s =
        buildHitsFromBlastOutput toDouble g text s) ∧
    (LabelsHaveKey pre →
      ∃ s' new, buildHitsFromBlastOutput toDouble g text s = some s' ∧
        s'.m_hits = s.m_hits ++ new ∧
        (∀ p, (s'.query p).m_hits = (s.query p).m_hits + hitsOfQuery new p)) ∧
    ((∀ l ∈ pre, ValidLine g s l) →
      ∃ s' new, buildHitsFromBlastOutput toDouble g text s = some s' ∧
        s'.m_hits = s.m_hits ++ new ∧ new.length = pre.length) := by
  have hcut : ∀ tail, buildHitsLoop toDouble g (pre ++ bad :: tail) s =
      buildHitsLoop toDouble g pre s := by
    intro tail
    have hstop : ∀ s1 : BlastSearch D, s1.m_queries = s.m_queries →
        (∀ p, (s1.query p).m_name = (s.query p).m_name) →
        buildHitsLoop toDouble g (bad :: tail) s1 = buildHitsLoop toDouble g [] s1 := by
      intro s1 _ _
      rw [buildHitsLoop_unknown_node toDouble g bad tail s1 key h12 hfwd hkey hnode]
      rfl
    have := buildHitsLoop_append_congr_names toDouble g (bad :: tail) [] s hstop pre s rfl
      (fun _ => rfl)
    rw [List.append_nil] at this
    exact this
  have htext : buildHitsFromBlastOutput toDouble g text s = buildHitsLoop toDouble g pre s := by
    unfold buildHitsFromBlastOutput
    simp only [hsplit]
    exact hcut rest
  refine ⟨?_, ?_, ?_, ?_⟩
  · intro textPre hpre
    rw [htext]
    unfold buildHitsFromBlastOutput
    simp only [hpre]
  · intro text2 rest2 h2
    rw [htext]
    unfold buildHitsFromBlastOutput
    simp only [h2]
    exact hcut rest2
  · intro hlabels
    obtain ⟨s1, hs1⟩ := buildHitsLoop_returns toDouble g pre s hlabels
    obtain ⟨_, new, hh, _, _, _, _, hp⟩ := buildHitsLoop_result toDouble g pre s s1 hs1
    exact ⟨s1, new, by rw [htext, hs1], hh, fun p => (hp p).2.2⟩
  · intro hvalid
    obtain ⟨s1, new, hrun, hhits, hlen, _, _⟩ :=
      buildHitsLoop_valid_lines toDouble g pre s hvalid
    refine ⟨s1, new, ?_, hhits, hlen⟩
    have := hrun []
    rw [List.append_nil] at this
    rw [htext, this]
    rfl

/-- Claim C5, amended, on an example: a valid line, a reverse-strand line, a line for
the unknown node `"9"`, then a valid line. The result is the one of the first two lines
alone, it is a state, and the hit of the first line is in its table. -/
theorem buildHits_unknown_node_stops_witness :
    buildHitsFromBlastOutput id exampleGraph
        (unlines [exampleLine, reverseLine, unknownNodeLine, exampleLine2]) exampleSearch =
      buildHitsFromBlastOutput id exampleGraph (unlines [exampleLine, reverseLine])
        exampleSearch ∧
    (∃ s' new, buildHitsFromBlastOutput id exampleGraph
        (unlines [exampleLine, reverseLine, unknownNodeLine, exampleLine2]) exampleSearch =
          some s' ∧
      s'.m_hits = exampleSearch.m_hits ++ new ∧
      (∀ p, (s'.query p).m_hits = (exampleSearch.query p).m_hits + hitsOfQuery new p)) ∧
    (buildHitsFromBlastOutput id exampleGraph
        (unlines [exampleLine, reverseLine, unknownNodeLine, exampleLine2])
        exampleSearch).map (fun r => r.m_hits) = some [exampleHit] :=
  have h := buildHits_unknown_node_stops id exampleGraph exampleSearch
    (unlines [exampleLine, reverseLine, unknownNodeLine, exampleLine2])
    [exampleLine, reverseLine] unknownNodeLine [exampleLine2] "9".toList
    (by decide) (by decide) (by decide) (by decide) (by decide)
  ⟨h.1 (unlines [exampleLine, reverseLine]) (by decide),
    h.2.2.1 (by unfold LabelsHaveKey; decide), by decide⟩

end Bandage
